import Mathlib

/-!
Verification of the RustRunner workflow engine core.

This file gives a shallow embedding, in Lean, of the data model and the
algorithms of the RustRunner repository (`src/workflow/model.rs`,
`src/workflow/planner.rs`, `src/workflow/validator.rs`,
`src/workflow/parser.rs`, `src/workflow/wildcards.rs`,
`src/execution/engine.rs`, `src/workflow/state.rs`) and proves the
spec-level claims about them.

Modelling conventions:
- Rust `usize` values are modelled as `Nat`; the only subtraction the code
  performs is `usize::saturating_sub`, which coincides with `Nat` subtraction.
  The in-degree counters of Kahn's algorithm are modelled as `Int`, because
  the Rust code decrements them with plain `-=` (which would be a panic on
  underflow rather than a wrap in the executions of interest).
- `HashSet<String>` is modelled as a duplicate-free `List String` with
  `setInsert` / `setRemoved` / membership; `HashSet::len` is the list length.
- `HashMap` is modelled as an association list with insert-or-overwrite
  (`amapSet`) and lookup (`amapGet`); the workflow code never iterates a
  `HashMap` in an order-dependent way.
- The `step_metrics` map of the planner is modelled by its `status` component
  as a total function `String → StepStatus`; every mutation in the Rust code
  goes through `HashMap::get_mut`, so the model guards each update with the
  presence of the key among the workflow's step ids, exactly as the source
  does. Timing fields (`start_time`, `end_time`, `duration_ms`) read the wall
  clock and are not part of any claim; they are omitted.
- Fallible Rust functions returning `Result<T, String>` are modelled as
  `Except E T` with a structured error type `E` carrying the same data that
  the Rust code formats into its message string.
-/

namespace RustRunner

/-- Insertion into a `HashSet<String>` modelled on lists: a no-op when the
element is already present, so that duplicate-freedom is preserved. -/
def setInsert (s : List String) (x : String) : List String :=
  if x ∈ s then s else x :: s

/-- Removal from a `HashSet<String>` modelled on lists. -/
def setRemoved (s : List String) (x : String) : List String :=
  s.filter (fun y => y != x)

/-- Insert-or-overwrite into an association list, modelling
`HashMap::insert`. -/
def amapSet {α : Type} (m : List (String × α)) (k : String) (v : α) :
    List (String × α) :=
  match m with
  | [] => [(k, v)]
  | (k', v') :: rest =>
    if k' = k then (k, v) :: rest else (k', v') :: amapSet rest k v

/-- Lookup in an association list, modelling `HashMap::get`. -/
def amapGet {α : Type} (m : List (String × α)) (k : String) : Option α :=
  match m with
  | [] => none
  | (k', v') :: rest => if k' = k then some v' else amapGet rest k

/-- Decidable equality for `Except`, used to evaluate modelled fallible
functions on concrete inputs. -/
instance exceptDecEq {e a : Type} [DecidableEq e] [DecidableEq a] :
    DecidableEq (Except e a) := fun x y =>
  match x, y with
  | Except.ok v, Except.ok w =>
    if h : v = w then Decidable.isTrue (by rw [h])
    else Decidable.isFalse (fun hc => h (by simpa using hc))
  | Except.error v, Except.error w =>
    if h : v = w then Decidable.isTrue (by rw [h])
    else Decidable.isFalse (fun hc => h (by simpa using hc))
  | Except.ok _, Except.error _ => Decidable.isFalse (fun hc => by simp at hc)
  | Except.error _, Except.ok _ => Decidable.isFalse (fun hc => by simp at hc)

/-- Rust `str::trim().is_empty()`: every character is whitespace.  (Defined
over the character list so that concrete instances evaluate in the kernel.) -/
def isBlank (s : String) : Bool :=
  s.toList.all Char.isWhitespace

/-- Splitting a character list at a separator character (the groups between
separators, in order; `[]` input yields one empty group, as Rust `split`). -/
def splitCharAux (sep : Char) : List Char → List (List Char)
  | [] => [[]]
  | c :: rest =>
    if c = sep then [] :: splitCharAux sep rest
    else
      match splitCharAux sep rest with
      | [] => [[c]]
      | g :: gs => (c :: g) :: gs

/-- `str::split(sep)` for a one-character separator (also the behaviour of
`String::splitOn` for that separator). -/
def splitOnChar (sep : Char) (s : String) : List String :=
  (splitCharAux sep s.toList).map String.mk

/-- Rust `str::trim`: strip leading and trailing whitespace. -/
def strTrim (s : String) : String :=
  String.mk
    (((s.toList.dropWhile Char.isWhitespace).reverse.dropWhile
      Char.isWhitespace).reverse)

/-- Lexicographic order on character lists — the order `Vec::sort` uses on
strings (byte order and codepoint order agree on UTF-8). -/
def lexLe : List Char → List Char → Bool
  | [], _ => true
  | _ :: _, [] => false
  | a :: as, b :: bs => if a = b then lexLe as bs else decide (a < b)

/-- String comparison used by the sorts. -/
def strLeB (a b : String) : Bool :=
  lexLe a.toList b.toList

/-- Left-to-right, non-overlapping replacement on character lists; the fuel
(instantiated with the text length) makes the recursion structural.  For a
non-empty pattern this is exactly Rust `str::replace`; the patterns used
here (`"{name}"`) are never empty. -/
def replaceFuel (pat sub : List Char) : Nat → List Char → List Char
  | 0, l => l
  | fuel + 1, l =>
    match l with
    | [] => []
    | c :: rest =>
      if !pat.isEmpty && decide (l.take pat.length = pat) then
        sub ++ replaceFuel pat sub fuel (l.drop pat.length)
      else
        c :: replaceFuel pat sub fuel rest

/-- Rust `str::replace`. -/
def strReplace (text pat sub : String) : String :=
  String.mk (replaceFuel pat.toList sub.toList text.toList.length text.toList)

/-! ## Data model (`src/workflow/model.rs`) -/

/-- A single workflow step (`struct Step` in `model.rs`).  The GUI-only
`color` field and the per-step `wildcard_files` map are omitted: no claim
mentions them and no modelled function reads them (`expand_workflow_wildcards`
receives the already-merged global map as an argument). -/
structure Step where
  id : String
  tool : String
  command : String
  input : List String
  output : List String
  previous : List String
  next : List String
  threads : Nat
  deriving DecidableEq, Inhabited

/-- A workflow (`struct Workflow` in `model.rs`). -/
structure Workflow where
  steps : List Step
  tools : List String
  deriving DecidableEq, Inhabited

/-- `Workflow::refresh_tools`: the sorted list of distinct tool names. -/
def Workflow.refreshTools (w : Workflow) : Workflow :=
  { w with tools := List.insertionSort (fun a b => strLeB a b = true) (w.steps.map Step.tool).dedup }

/-! ## Execution planner (`src/workflow/planner.rs`) -/

/-- Status of a workflow step during execution (`enum StepStatus`). -/
inductive StepStatus where
  | pending
  | running
  | completed
  | failed (msg : String)
  | skipped
  deriving DecidableEq

/-- The execution planner state (`struct ExecutionPlanner`).  `workflow` is
the (already wildcard-expanded) workflow; `maxSystemThreads` is the value of
`num_cpus::get()` captured at construction. -/
structure ExecutionPlanner where
  workflow : Workflow
  dryRun : Bool
  completedSteps : List String
  runningSteps : List String
  maxParallelJobs : Nat
  stepStatus : String → StepStatus
  currentThreadsUsed : Nat
  maxSystemThreads : Nat

/-- Status update through `step_metrics.get_mut(step_id)`: the update
happens only when the key is present, and the metrics keys are exactly the
workflow's step ids (inserted at construction, never extended). -/
def ExecutionPlanner.setStatus (p : ExecutionPlanner) (stepId : String)
    (st : StepStatus) : String → StepStatus :=
  if p.workflow.steps.any (fun s => s.id == stepId) then
    fun x => if x = stepId then st else p.stepStatus x
  else
    p.stepStatus

/-- `ExecutionPlanner::new` for the `wildcard_files = None` path (the
`Some` path first rewrites the workflow with `expandWorkflowWildcards`,
modelled separately, and then builds the same state from the rewritten
workflow). -/
def ExecutionPlanner.new (workflow : Workflow) (dryRun : Bool)
    (maxParallelJobs : Nat) (maxSystemThreads : Nat) : ExecutionPlanner :=
  { workflow := workflow
    dryRun := dryRun
    completedSteps := []
    runningSteps := []
    maxParallelJobs := maxParallelJobs
    stepStatus := fun _ => StepStatus.pending
    currentThreadsUsed := 0
    maxSystemThreads := maxSystemThreads }

/-- One iteration of the `for step_id in &state.completed_steps` loop of
`ExecutionPlanner::from_state`. -/
def ExecutionPlanner.resumeStep (p : ExecutionPlanner) (stepId : String) :
    ExecutionPlanner :=
  if p.workflow.steps.any (fun s => s.id == stepId) then
    { p with
      completedSteps := setInsert p.completedSteps stepId
      stepStatus := p.setStatus stepId StepStatus.skipped }
  else
    p

/-- `ExecutionPlanner::from_state` (again for the `wildcard_files = None`
path).  `stateCompleted` lists the elements of the persisted
`WorkflowState.completed_steps` hash set, in some iteration order; the
resulting planner state does not depend on that order. -/
def ExecutionPlanner.fromState (workflow : Workflow)
    (stateCompleted : List String) (dryRun : Bool) (maxParallelJobs : Nat)
    (maxSystemThreads : Nat) : ExecutionPlanner :=
  stateCompleted.foldl ExecutionPlanner.resumeStep
    (ExecutionPlanner.new workflow dryRun maxParallelJobs maxSystemThreads)

/-- The dependency check of `get_ready_steps`:
`step.previous.is_empty() || step.previous.iter().all(|dep| completed.contains(dep))`. -/
def ExecutionPlanner.depsComplete (p : ExecutionPlanner) (s : Step) : Bool :=
  s.previous.isEmpty || s.previous.all (fun dep => p.completedSteps.contains dep)

/-- The scanning loop of `ExecutionPlanner::get_ready_steps`, with the
accumulated ready list and the `threads_to_allocate` running total.  The
`break` on reaching `max_parallel_jobs` returns the accumulator. -/
def ExecutionPlanner.readyLoop (p : ExecutionPlanner) :
    List Step → List Step → Nat → List Step
  | [], ready, _ => ready
  | s :: rest, ready, alloc =>
    if s.id ∈ p.completedSteps ∨ s.id ∈ p.runningSteps then
      p.readyLoop rest ready alloc
    else if ¬ p.depsComplete s then
      p.readyLoop rest ready alloc
    else if p.maxParallelJobs ≤ ready.length then
      ready
    else if p.maxSystemThreads < p.currentThreadsUsed + alloc + s.threads then
      p.readyLoop rest ready alloc
    else
      p.readyLoop rest (ready ++ [s]) (alloc + s.threads)

/-- `ExecutionPlanner::get_ready_steps`. -/
def ExecutionPlanner.getReadySteps (p : ExecutionPlanner) : List Step :=
  p.readyLoop p.workflow.steps [] 0

/-- `ExecutionPlanner::mark_step_running`. -/
def ExecutionPlanner.markStepRunning (p : ExecutionPlanner) (stepId : String) :
    ExecutionPlanner :=
  { p with
    runningSteps := setInsert p.runningSteps stepId
    currentThreadsUsed :=
      match p.workflow.steps.find? (fun s => s.id == stepId) with
      | some s => p.currentThreadsUsed + s.threads
      | none => p.currentThreadsUsed
    stepStatus := p.setStatus stepId StepStatus.running }

/-- `ExecutionPlanner::mark_step_completed` (`saturating_sub` is `Nat`
subtraction). -/
def ExecutionPlanner.markStepCompleted (p : ExecutionPlanner)
    (stepId : String) : ExecutionPlanner :=
  { p with
    runningSteps := setRemoved p.runningSteps stepId
    completedSteps := setInsert p.completedSteps stepId
    currentThreadsUsed :=
      match p.workflow.steps.find? (fun s => s.id == stepId) with
      | some s => p.currentThreadsUsed - s.threads
      | none => p.currentThreadsUsed
    stepStatus := p.setStatus stepId StepStatus.completed }

/-- `ExecutionPlanner::mark_step_failed`.  The step leaves the running set,
its threads are released, and only its metrics status records the failure:
it is inserted in neither the completed set nor any other set. -/
def ExecutionPlanner.markStepFailed (p : ExecutionPlanner) (stepId : String)
    (err : String) : ExecutionPlanner :=
  { p with
    runningSteps := setRemoved p.runningSteps stepId
    currentThreadsUsed :=
      match p.workflow.steps.find? (fun s => s.id == stepId) with
      | some s => p.currentThreadsUsed - s.threads
      | none => p.currentThreadsUsed
    stepStatus := p.setStatus stepId (StepStatus.failed err) }

/-- `ExecutionPlanner::has_work_remaining`. -/
def ExecutionPlanner.hasWorkRemaining (p : ExecutionPlanner) : Bool :=
  p.completedSteps.length < p.workflow.steps.length

/-- `ExecutionPlanner::progress`. -/
def ExecutionPlanner.progress (p : ExecutionPlanner) : Nat × Nat :=
  (p.completedSteps.length, p.workflow.steps.length)

/-! ## Validator (`src/workflow/validator.rs`) -/

/-- Structured validation errors (`enum ValidationError`); each constructor
carries the data that the Rust `Display` impl formats into its message. -/
inductive ValidationError where
  | emptyWorkflow
  | duplicateStepId (id : String)
  | emptyStepId
  | emptyTool (step : String)
  | emptyCommand (step : String)
  | invalidReference (step reference : String)
  | cyclicDependency
  | unusedPlaceholder (step placeholder : String)
  deriving DecidableEq

/-- `validate_step`: an empty (or whitespace-only) id is reported alone and
suppresses the remaining field checks for that step; otherwise the empty-tool
and empty-command violations are both collected.  (The `{input}`/`{output}`
placeholder mismatches are logged as warnings, not returned.) -/
def validateStep (s : Step) : List ValidationError :=
  if isBlank s.id then
    [ValidationError.emptyStepId]
  else
    (if isBlank s.tool then [ValidationError.emptyTool s.id] else []) ++
    (if isBlank s.command then [ValidationError.emptyCommand s.id] else [])

/-- The duplicate-id scan of `validate_workflow`: the first id equal to an
earlier one (in step-list order), if any. -/
def firstDuplicate : List String → List String → Option String
  | [], _ => none
  | x :: rest, seen => if x ∈ seen then some x else firstDuplicate rest (x :: seen)

/-- The dangling-reference checks for one step: every `previous` entry and
then every `next` entry that is not among the workflow's ids. -/
def refErrors (ids : List String) (s : Step) : List ValidationError :=
  (s.previous.filter (fun p => !(ids.contains p))).map
    (fun p => ValidationError.invalidReference s.id p) ++
  (s.next.filter (fun n => !(ids.contains n))).map
    (fun n => ValidationError.invalidReference s.id n)

/-- The `all_errors` list accumulated by the per-step loop of
`validate_workflow`: field violations then reference violations for each
step, in step-list order. -/
def collectViolations (w : Workflow) : List ValidationError :=
  w.steps.flatMap (fun s => validateStep s ++ refErrors (w.steps.map Step.id) s)

/-- `workflow.steps.iter().find(|s| s.id == x)`. -/
def stepById (steps : List Step) (x : String) : Option Step :=
  steps.find? (fun s => s.id == x)

/-- The `previous` list of the (first) step with the given id, empty when no
such step exists. -/
def prevIds (steps : List Step) (x : String) : List String :=
  ((stepById steps x).map Step.previous).getD []

/-- The successor lookup of the Kahn loop
(`steps.iter().find(|s| s.id == current).map(|s| s.next.clone()).unwrap_or_default()`). -/
def nextIds (steps : List Step) (x : String) : List String :=
  ((stepById steps x).map Step.next).getD []

/-- `topological_sort`, building the in-degree map: one `HashMap::insert`
per step (`in_degree.insert(step.id, step.previous.len())`), so a later
duplicate id overwrites an earlier one. -/
def buildInDegree (steps : List Step) : List (String × Int) :=
  steps.foldl (fun m s => amapSet m s.id (s.previous.length : Int)) []

/-- Processing the successor list of a dequeued step: each successor present
in the in-degree map is decremented, and the ones whose degree reaches zero
are collected, in successor-list order, to be pushed onto the queue. -/
def kahnDecrement : List String → List (String × Int) →
    List (String × Int) × List String
  | [], inDeg => (inDeg, [])
  | succ :: rest, inDeg =>
    match amapGet inDeg succ with
    | none => kahnDecrement rest inDeg
    | some d =>
      let out := kahnDecrement rest (amapSet inDeg succ (d - 1))
      (out.1, (if d - 1 = 0 then [succ] else []) ++ out.2)

/-- The `while let Some(current_id) = queue.pop_front()` loop of
`topological_sort`.  The Rust loop terminates because every iteration
consumes one queue element, and an id enters the queue at most once as a
zero-in-degree seed and at most once from a decrement (an integer in-degree
passes zero at most once); the fuel `2 * steps.length + 1` therefore bounds
the iteration count of every execution. -/
def kahnLoop (steps : List Step) :
    Nat → List String → List (String × Int) → List String → List String
  | 0, _, _, sorted => sorted
  | _ + 1, [], _, sorted => sorted
  | fuel + 1, current :: queueRest, inDeg, sorted =>
    let out := kahnDecrement (nextIds steps current) inDeg
    kahnLoop steps fuel (queueRest ++ out.2) out.1 (sorted ++ [current])

/-- The `sorted_order` produced by Kahn's algorithm: the queue is seeded
with the zero-in-degree (empty `previous`) steps in original list order. -/
def kahnSortedOrder (w : Workflow) : List String :=
  kahnLoop w.steps (2 * w.steps.length + 1)
    ((w.steps.filter (fun s => s.previous.isEmpty)).map Step.id)
    (buildInDegree w.steps) []

/-- `step_map.get(&id).unwrap()` where `step_map` is a `HashMap` built by
draining the step list: a later duplicate id overwrites an earlier one, so
lookup yields the last step with the given id. -/
def lastStepWithId (steps : List Step) (id : String) : Step :=
  (steps.reverse.find? (fun s => s.id == id)).getD default

/-- `topological_sort`: on success the step list is replaced by the sorted
order; a shortfall in the sorted order's length signals a cycle and nothing
is reordered. -/
def topologicalSort (w : Workflow) : Except ValidationError Workflow :=
  let sorted := kahnSortedOrder w
  if sorted.length ≠ w.steps.length then
    Except.error ValidationError.cyclicDependency
  else
    Except.ok { w with steps := sorted.map (lastStepWithId w.steps) }

/-- The error payload of `validate_workflow`: the fail-fast paths return a
single error, while the per-step collection path joins all collected
messages into one combined error (`error_messages.join("\n")` in the
source, modelled as the list of structured errors). -/
inductive WorkflowError where
  | single (e : ValidationError)
  | combined (errs : List ValidationError)
  deriving DecidableEq

/-- `validate_workflow`: empty-workflow check, `refresh_tools`, fail-fast
duplicate-id scan, collection of per-step field and reference violations,
then topological sort.  Returns the reordered workflow on success (the Rust
function mutates in place). -/
def validateWorkflow (w : Workflow) : Except WorkflowError Workflow :=
  if w.steps.isEmpty then
    Except.error (WorkflowError.single ValidationError.emptyWorkflow)
  else
    match firstDuplicate (w.steps.map Step.id) [] with
    | some id =>
      Except.error (WorkflowError.single (ValidationError.duplicateStepId id))
    | none =>
      if (collectViolations w).isEmpty then
        match topologicalSort w.refreshTools with
        | Except.error e => Except.error (WorkflowError.single e)
        | Except.ok w' => Except.ok w'
      else
        Except.error (WorkflowError.combined (collectViolations w))

/-! ## Parser: implicit dependency derivation (`src/workflow/parser.rs`) -/

/-- Splitting one input/output entry on commas with trimming
(`output.split(',').map(|s| s.trim())`), keeping only non-empty pieces as
the output-map loop does. -/
def splitTrim (entry : String) : List String :=
  ((splitOnChar ',' entry).map strTrim).filter (fun f => !f.isEmpty)

/-- The comma-split, trimmed output files of a step, in declaration order. -/
def stepOutputFiles (s : Step) : List String :=
  s.output.flatMap splitTrim

/-- The comma-split, trimmed input files of a step.  (The input loop of
`derive_dependencies_from_files` performs no emptiness filter; an empty
piece simply never matches an output-map key, which are all non-empty.) -/
def stepInputFiles (s : Step) : List String :=
  s.input.flatMap (fun i => (splitOnChar ',' i).map strTrim)

/-- The ambiguous-producer error of `derive_dependencies_from_files`
("Multiple steps produce file: first and second"). -/
inductive DeriveError where
  | ambiguousProducer (file firstProducer secondProducer : String)
  deriving DecidableEq

/-- Inserting one step's output files into the output→producer map; a file
already present triggers the ambiguous-producer error naming the file, the
previously recorded producer, and the current step. -/
def insertOutputs (stepId : String) :
    List String → List (String × String) →
    Except DeriveError (List (String × String))
  | [], m => Except.ok m
  | f :: rest, m =>
    match amapGet m f with
    | some existing =>
      Except.error (DeriveError.ambiguousProducer f existing stepId)
    | none => insertOutputs stepId rest (amapSet m f stepId)

/-- Building the output→producer map over all steps in order. -/
def buildOutputMap : List Step → List (String × String) →
    Except DeriveError (List (String × String))
  | [], m => Except.ok m
  | s :: rest, m =>
    match insertOutputs s.id (stepOutputFiles s) m with
    | Except.error e => Except.error e
    | Except.ok m' => buildOutputMap rest m'

/-- `dependencies.entry(k).or_default().push(v)` on the association-list
model of `HashMap<String, Vec<String>>`. -/
def multiPush (m : List (String × List String)) (k v : String) :
    List (String × List String) :=
  match amapGet m k with
  | some vs => amapSet m k (vs ++ [v])
  | none => amapSet m k [v]

/-- One consumer step's contribution to the `dependencies`/`dependents`
maps: for each input file with a producer, push the producer onto the
consumer's dependency list and the consumer onto the producer's dependent
list. -/
def buildDepMapsStep (outMap : List (String × String)) (stepId : String) :
    List String →
    List (String × List String) × List (String × List String) →
    List (String × List String) × List (String × List String)
  | [], maps => maps
  | f :: rest, (deps, dents) =>
    match amapGet outMap f with
    | some producer =>
      buildDepMapsStep outMap stepId rest
        (multiPush deps stepId producer, multiPush dents producer stepId)
    | none => buildDepMapsStep outMap stepId rest (deps, dents)

/-- The `dependencies` and `dependents` maps over all steps. -/
def buildDepMaps (outMap : List (String × String)) :
    List Step →
    List (String × List String) × List (String × List String) →
    List (String × List String) × List (String × List String)
  | [], maps => maps
  | s :: rest, maps =>
    buildDepMaps outMap rest (buildDepMapsStep outMap s.id (stepInputFiles s) maps)

/-- `Vec::sort` followed by `Vec::dedup` (adjacent deduplication, which on a
sorted list removes all duplicates). -/
def sortDedup (l : List String) : List String :=
  (List.insertionSort (fun a b => strLeB a b = true) l).dedup

/-- Applying the derived edges to one step: a step with no map entry keeps
its (previously cleared) empty list. -/
def applyDerived (deps dents : List (String × List String)) (s : Step) : Step :=
  let s' :=
    match amapGet deps s.id with
    | some ds => { s with previous := sortDedup ds }
    | none => s
  match amapGet dents s'.id with
  | some ns => { s' with next := sortDedup ns }
  | none => s'

/-- The initial pass of `derive_dependencies_from_files`: every step's
`previous` and `next` lists are cleared before derivation. -/
def clearEdges (s : Step) : Step :=
  { s with previous := [], next := [] }

/-- `derive_dependencies_from_files`: clear all edges, build the
output→producer map (failing on an ambiguous producer), match inputs
against it, and apply the sorted, deduplicated derived edges. -/
def deriveDependenciesFromFiles (w : Workflow) : Except DeriveError Workflow :=
  let cleared := w.steps.map clearEdges
  match buildOutputMap cleared [] with
  | Except.error e => Except.error e
  | Except.ok outMap =>
    let maps := buildDepMaps outMap cleared ([], [])
    Except.ok { w with steps := cleared.map (applyDerived maps.1 maps.2) }

/-! ## Wildcards (`src/workflow/wildcards.rs`) -/

/-- `has_wildcards(text)`: the text contains both an opening and a closing
brace. -/
def textHasWildcards (text : String) : Bool :=
  text.toList.contains '{' && text.toList.contains '}'

/-- `Step::has_wildcards` (`model.rs`): any input, any output, or the
command text contains wildcard syntax. -/
def Step.hasWildcards (s : Step) : Bool :=
  s.input.any textHasWildcards || s.output.any textHasWildcards || textHasWildcards s.command

/-- The character scan of `extract_wildcard_names`; `current` holds the
characters of the name being read, most recent first. -/
def extractNamesGo : List Char → Bool → List Char → List String
  | [], _, _ => []
  | c :: rest, inWildcard, current =>
    if c = '{' then
      extractNamesGo rest true []
    else if c = '}' then
      if inWildcard ∧ current ≠ [] then
        String.mk current.reverse :: extractNamesGo rest false []
      else
        extractNamesGo rest false []
    else if inWildcard then
      extractNamesGo rest inWildcard (c :: current)
    else
      extractNamesGo rest inWildcard current

/-- `extract_wildcard_names`. -/
def extractWildcardNames (pattern : String) : List String :=
  extractNamesGo pattern.toList false []

/-- `Path::file_name().and_then(|n| n.to_str()).unwrap_or(file)` for the
data-file strings handled here: the last non-empty `/`-separated component,
falling back to the whole string. -/
def pathFileName (f : String) : String :=
  match ((splitOnChar '/' f).filter (fun c => !c.isEmpty)).reverse with
  | [] => f
  | last :: _ => last

/-- `Path::extension().and_then(|e| e.to_str())`: the part of the file name
after its last dot, unless there is no dot or the name's only dot is a
leading one. -/
def pathExtension (f : String) : Option String :=
  let name := pathFileName f
  match (splitOnChar '.' name).reverse with
  | [] => none
  | [_] => none
  | lastPart :: restRev =>
    if (String.intercalate "." restRev.reverse).isEmpty then none
    else some lastPart

/-- `Path::file_stem().and_then(|s| s.to_str()).unwrap_or(file)`: the file
name with its extension (if any) removed. -/
def pathFileStem (f : String) : String :=
  let name := pathFileName f
  match pathExtension f with
  | none => name
  | some _ =>
    match (splitOnChar '.' name).reverse with
    | [] => name
    | _ :: restRev => String.intercalate "." restRev.reverse

/-- `extract_wildcard_values`: when all files that have an extension share
the same one, each file maps to its stem, otherwise to its file name. -/
def extractWildcardValues (files : List String) : List String :=
  let extensions := files.filterMap pathExtension
  let hasCommon :=
    match extensions with
    | [] => false
    | e :: rest => rest.all (fun x => x = e)
  files.map (fun file => if hasCommon then pathFileStem file else pathFileName file)

/-- `substitute_wildcard`: replace every occurrence of the brace-delimited
token with the value. -/
def substituteWildcard (text wildcardName value : String) : String :=
  strReplace text ("\x7b" ++ wildcardName ++ "\x7d") value

/-- Errors of `expand_workflow_wildcards`. -/
inductive ExpandError where
  | multipleWildcards (step : String)
  | noFilesForWildcard (step name : String)
  deriving DecidableEq

/-- The per-value concrete step built by the expansion loop. -/
def instantiateStep (s : Step) (name value : String) : Step :=
  { s with
    id := s.id ++ "_" ++ value
    input := s.input.map (fun i => substituteWildcard i name value)
    output := s.output.map (fun o => substituteWildcard o name value)
    command := substituteWildcard s.command name value
    previous := s.previous.map (fun d => d ++ "_" ++ value)
    next := s.next.map (fun d => d ++ "_" ++ value) }

/-- Expansion of one step by `expand_workflow_wildcards`: a step with no
wildcard in any input and no wildcard in any output is kept as-is (the
command text is not consulted); otherwise the distinct wildcard names of
the inputs and outputs are collected, exactly one is required, its file
list is looked up, and one concrete step per extracted value is produced. -/
def expandOne (wildcardFiles : List (String × List String)) (s : Step) :
    Except ExpandError (List Step) :=
  let hasInputWc := s.input.any textHasWildcards
  let hasOutputWc := s.output.any textHasWildcards
  if !hasInputWc && !hasOutputWc then
    Except.ok [s]
  else
    match (s.input.flatMap extractWildcardNames ++
           s.output.flatMap extractWildcardNames).dedup with
    | [] => Except.ok [s]
    | [name] =>
      match amapGet wildcardFiles name with
      | none => Except.error (ExpandError.noFilesForWildcard s.id name)
      | some files =>
        Except.ok ((extractWildcardValues files).map (instantiateStep s name))
    | _ => Except.error (ExpandError.multipleWildcards s.id)

/-- The step loop of `expand_workflow_wildcards`: expanded steps are
concatenated in order and the first error aborts. -/
def expandSteps (wildcardFiles : List (String × List String)) :
    List Step → Except ExpandError (List Step)
  | [] => Except.ok []
  | s :: rest =>
    match expandOne wildcardFiles s with
    | Except.error e => Except.error e
    | Except.ok es =>
      match expandSteps wildcardFiles rest with
      | Except.error e => Except.error e
      | Except.ok rs => Except.ok (es ++ rs)

/-- `expand_workflow_wildcards`. -/
def expandWorkflowWildcards (w : Workflow)
    (wildcardFiles : List (String × List String)) :
    Except ExpandError Workflow :=
  match expandSteps wildcardFiles w.steps with
  | Except.error e => Except.error e
  | Except.ok steps => Except.ok { w with steps := steps }

/-! ## State persistence and engine result handling
(`src/workflow/state.rs`, `src/execution/engine.rs`) -/

/-- The persisted `WorkflowState` (`state.rs`); the hash set of completed
ids is modelled as a duplicate-free list and the timestamp is omitted. -/
structure WorkflowState where
  workflowPath : String
  completedSteps : List String
  failedStep : Option String
  deriving DecidableEq

/-- `WorkflowState::mark_completed`. -/
def WorkflowState.markCompleted (st : WorkflowState) (stepId : String) :
    WorkflowState :=
  { st with
    completedSteps := setInsert st.completedSteps stepId
    failedStep := none }

/-- `WorkflowState::mark_failed`. -/
def WorkflowState.markFailed (st : WorkflowState) (stepId : String) :
    WorkflowState :=
  { st with failedStep := some stepId }

/-- Outcome of one `WorkflowState::save()` call; the filesystem effect is
abstracted as an oracle value supplied by the caller. -/
inductive SaveOutcome where
  | ok
  | error (msg : String)
  deriving DecidableEq

/-- The ways `Engine::run`'s result-processing block can end the run. -/
inductive RunError where
  | stepFailed (stepId msg : String)
  | persistenceFailed (msg : String)
  deriving DecidableEq

/-- The result-processing block at the bottom of `Engine::run`'s main loop
(the `match result` on the received `(step_id, result)` pair).  On success
it marks the step completed in the planner and the persisted state and then
runs `state.save()?`; on failure it marks the step failed, runs
`state.save()?`, and returns the step-failure error.  In both branches the
`?` operator propagates a save error out of `run`.  Returns `ok` with the
updated planner and state exactly when the main loop continues. -/
def processStepResult (planner : ExecutionPlanner) (state : WorkflowState)
    (stepId : String) (result : Except String Unit)
    (saveOutcome : SaveOutcome) :
    Except RunError (ExecutionPlanner × WorkflowState) :=
  match result with
  | Except.ok _ =>
    let planner' := planner.markStepCompleted stepId
    let state' := state.markCompleted stepId
    match saveOutcome with
    | SaveOutcome.ok => Except.ok (planner', state')
    | SaveOutcome.error e => Except.error (RunError.persistenceFailed e)
  | Except.error e =>
    let _state' := state.markFailed stepId
    match saveOutcome with
    | SaveOutcome.ok => Except.error (RunError.stepFailed stepId e)
    | SaveOutcome.error se => Except.error (RunError.persistenceFailed se)

/-! ## Verification-layer definitions -/

/-- Total thread demand of a list of steps. -/
def sumThreads (l : List Step) : Nat :=
  (l.map Step.threads).sum

/-- Sum of `threads` over the workflow steps whose id is in the planner's
running set. -/
def runningThreads (p : ExecutionPlanner) : Nat :=
  sumThreads (p.workflow.steps.filter (fun s => p.runningSteps.contains s.id))

/-- Sum of `threads` over the workflow steps whose metrics status is
`Running`. -/
def statusRunningThreads (p : ExecutionPlanner) : Nat :=
  sumThreads (p.workflow.steps.filter
    (fun s => decide (p.stepStatus s.id = StepStatus.running)))

/-- Loop invariant of Kahn's algorithm (`topological_sort`), relating the
queue, the in-degree map and the accumulated sorted order. -/
structure KahnInv (steps : List Step) (queue : List String)
    (inDeg : List (String × Int)) (sorted : List String) : Prop where
  sorted_nodup : sorted.Nodup
  queue_nodup : queue.Nodup
  disjoint : ∀ x ∈ sorted, x ∉ queue
  sorted_sub : ∀ x ∈ sorted, x ∈ steps.map Step.id
  queue_sub : ∀ x ∈ queue, x ∈ steps.map Step.id
  queue_ready : ∀ x ∈ queue, ∀ p ∈ prevIds steps x, p ∈ sorted
  sorted_good : ∀ i : Fin sorted.length, ∀ p ∈ prevIds steps (sorted.get i),
    ∃ j : Fin sorted.length, j.val < i.val ∧ sorted.get j = p
  degrees : ∀ s ∈ steps, amapGet inDeg s.id =
    some ((s.previous.countP (fun p => decide (p ∉ sorted)) : Int))

/-- The guarantees of a completed Kahn loop: the emitted order is
duplicate-free, contains only step ids, and places every id after all of
its dependencies. -/
def KahnOut (steps : List Step) (L : List String) : Prop :=
  L.Nodup ∧ (∀ x ∈ L, x ∈ steps.map Step.id) ∧
  ∀ i : Fin L.length, ∀ p ∈ prevIds steps (L.get i),
    ∃ j : Fin L.length, j.val < i.val ∧ L.get j = p

/-- A dependency cycle `x → c₀ → … → cₖ → x`: consecutive edges follow the
`previous` relation (`a ∈ prevIds steps b` means step `b` depends on `a`). -/
def IsDepCycle (steps : List Step) (x : String) (c : List String) : Prop :=
  List.Chain (fun a b => a ∈ prevIds steps b) x (c ++ [x])

/-- Planner states reachable by the coordinator's discipline of
`Engine::run`: the planner is created by `new` or `from_state` on a
validated (duplicate-free) workflow; `mark_step_running` is called only on
steps of the batch returned by the immediately preceding `get_ready_steps`
call (in order, possibly abandoning a suffix at the next query); and
`mark_step_completed` / `mark_step_failed` are called only on running
steps.  The second component is the not-yet-dispatched remainder of the
last batch. -/
inductive Reach : ExecutionPlanner → List Step → Prop where
  | init (w : Workflow) (dryRun : Bool) (maxJobs maxSys : Nat)
      (hnd : (w.steps.map Step.id).Nodup) :
      Reach (ExecutionPlanner.new w dryRun maxJobs maxSys) []
  | resume (w : Workflow) (completed : List String) (dryRun : Bool)
      (maxJobs maxSys : Nat) (hnd : (w.steps.map Step.id).Nodup) :
      Reach (ExecutionPlanner.fromState w completed dryRun maxJobs maxSys) []
  | query (p : ExecutionPlanner) (b : List Step) :
      Reach p b → Reach p p.getReadySteps
  | dispatch (p : ExecutionPlanner) (s : Step) (rest : List Step) :
      Reach p (s :: rest) → Reach (p.markStepRunning s.id) rest
  | complete (p : ExecutionPlanner) (b : List Step) (x : String) :
      Reach p b → x ∈ p.runningSteps → Reach (p.markStepCompleted x) b
  | fail (p : ExecutionPlanner) (b : List Step) (x e : String) :
      Reach p b → x ∈ p.runningSteps → Reach (p.markStepFailed x e) b

/-- State invariant of the planner under the coordinator's discipline. -/
structure PlannerInv (p : ExecutionPlanner) (b : List Step) : Prop where
  ids_nodup : (p.workflow.steps.map Step.id).Nodup
  threads_eq : p.currentThreadsUsed = runningThreads p
  threads_le : p.currentThreadsUsed ≤ p.maxSystemThreads
  batch_le : b ≠ [] →
    p.currentThreadsUsed + sumThreads b ≤ p.maxSystemThreads
  batch_nodup : (b.map Step.id).Nodup
  batch_fresh : ∀ x ∈ b, x ∈ p.workflow.steps ∧
    x.id ∉ p.runningSteps ∧ x.id ∉ p.completedSteps
  status_running : ∀ s ∈ p.workflow.steps,
    p.stepStatus s.id = StepStatus.running ↔ s.id ∈ p.runningSteps
  running_sub : ∀ x ∈ p.runningSteps, x ∈ p.workflow.steps.map Step.id
  completed_sub : ∀ x ∈ p.completedSteps, x ∈ p.workflow.steps.map Step.id
  completed_nodup : p.completedSteps.Nodup
  run_comp_disjoint : ∀ x ∈ p.runningSteps, x ∉ p.completedSteps

/-! ## Concrete instances used by witnesses and counterexamples -/

/-- A two-step workflow (`b` depends on `a`) listed out of order. -/
def wfTwo : Workflow :=
  ⟨[⟨"b", "bash", "run b", [], [], ["a"], [], 1⟩,
    ⟨"a", "bash", "run a", [], [], [], ["b"], 1⟩], []⟩

/-- The result of validating `wfTwo`: steps in topological order, tools
refreshed. -/
def wfTwoSorted : Workflow :=
  ⟨[⟨"a", "bash", "run a", [], [], [], ["b"], 1⟩,
    ⟨"b", "bash", "run b", [], [], ["a"], [], 1⟩], ["bash"]⟩

/-- A two-step mutual dependency: `a` depends on `b` and `b` depends on
`a`. -/
def wfCycle : Workflow :=
  ⟨[⟨"a", "bash", "run a", [], [], ["b"], ["b"], 1⟩,
    ⟨"b", "bash", "run b", [], [], ["a"], ["a"], 1⟩], []⟩

/-- A workflow with a duplicated step id whose first occurrence also has an
empty tool, so a field violation coexists with the duplicate id. -/
def wfDupTool : Workflow :=
  ⟨[⟨"a", "", "run a", [], [], [], [], 1⟩,
    ⟨"a", "bash", "run a again", [], [], [], [], 1⟩], []⟩

/-- A duplicate-free workflow with several collectable violations: an empty
tool on `a`, an empty command on `b`, and a dangling `previous` reference
`zz` on `b`. -/
def wfViols : Workflow :=
  ⟨[⟨"a", "", "run a", [], [], [], [], 1⟩,
    ⟨"b", "bash", "", [], [], ["zz"], [], 1⟩], []⟩

/-- A step whose only wildcard token occurs in its command text. -/
def cmdWcStep : Step :=
  ⟨"a", "bash", "echo \x7bsample\x7d", ["a.txt"], [], [], [], 1⟩

/-- A one-step workflow around `cmdWcStep`. -/
def wfCmdWc : Workflow := ⟨[cmdWcStep], []⟩

/-- A step with a wildcard token in its input pattern. -/
def ioWcStep : Step :=
  ⟨"a", "bash", "process", ["\x7bsample\x7d.txt"], [], [], [], 1⟩

/-- A workflow whose dependencies are derivable from declared files: `c`
consumes the outputs of `p1` and `p2`, and its stale hand-written edges are
cleared by derivation. -/
def wfDerive : Workflow :=
  ⟨[⟨"p1", "bash", "make x", [], ["x.txt"], [], [], 1⟩,
    ⟨"p2", "bash", "make y", [], ["y.txt"], [], [], 1⟩,
    ⟨"c", "bash", "consume", ["x.txt, y.txt"], [], ["stale"], ["stale"], 1⟩],
   []⟩

/-- The workflow `derive_dependencies_from_files` produces from
`wfDerive`. -/
def wfDerivedOut : Workflow :=
  ⟨[⟨"p1", "bash", "make x", [], ["x.txt"], [], ["c"], 1⟩,
    ⟨"p2", "bash", "make y", [], ["y.txt"], [], ["c"], 1⟩,
    ⟨"c", "bash", "consume", ["x.txt, y.txt"], [], ["p1", "p2"], [], 1⟩],
   []⟩

/-- `(amapGet m k).getD []`: the entry of a multimap key, defaulting to the
empty list. -/
def getDL (m : List (String × List String)) (k : String) : List String :=
  (amapGet m k).getD []

/-! ## Helper lemmas -/

theorem amapGet_amapSet {α : Type} (m : List (String × α)) (k k' : String)
    (v : α) :
    amapGet (amapSet m k v) k' = if k' = k then some v else amapGet m k' := by
  induction m with
  | nil =>
    by_cases h : k' = k
    · subst h; simp [amapSet, amapGet]
    · simp [amapSet, amapGet, h, Ne.symm h]
  | cons hd tl ih =>
    obtain ⟨k0, v0⟩ := hd
    by_cases h0 : k0 = k
    · subst h0
      by_cases h : k' = k0
      · subst h; simp [amapSet, amapGet]
      · simp [amapSet, amapGet, h, Ne.symm h]
    · by_cases h : k' = k0
      · subst h
        simp [amapSet, amapGet, h0, Ne.symm h0]
      · simp [amapSet, amapGet, h0, h, Ne.symm h, ih]

/-- `find?` by id returns the element itself when ids are duplicate-free. -/
theorem find_by_id_eq (l : List Step) (hnd : (l.map Step.id).Nodup)
    (s : Step) (hs : s ∈ l) : l.find? (fun t => t.id == s.id) = some s := by
  induction l with
  | nil => simp at hs
  | cons hd tl ih =>
    simp only [List.map_cons, List.nodup_cons] at hnd
    rcases List.mem_cons.mp hs with h | h
    · subst h
      simp [List.find?]
    · have hne : hd.id ≠ s.id := by
        intro he
        exact hnd.1 (he ▸ List.mem_map_of_mem Step.id h)
      have hfalse : (fun t => t.id == s.id) hd = false := by
        simpa using hne
      rw [List.find?_cons_of_neg _ (by simp [hfalse])]
      exact ih hnd.2 h

theorem stepById_of_mem (steps : List Step)
    (hnd : (steps.map Step.id).Nodup) (s : Step) (hs : s ∈ steps) :
    stepById steps s.id = some s :=
  find_by_id_eq steps hnd s hs

theorem lastStepWithId_of_mem (steps : List Step)
    (hnd : (steps.map Step.id).Nodup) (s : Step) (hs : s ∈ steps) :
    lastStepWithId steps s.id = s := by
  unfold lastStepWithId
  have hnd' : (steps.reverse.map Step.id).Nodup := by
    rw [List.map_reverse]
    exact List.nodup_reverse.mpr hnd
  rw [find_by_id_eq steps.reverse hnd' s (List.mem_reverse.mpr hs)]
  rfl

theorem stepById_eq_some (steps : List Step) (x : String) (s : Step)
    (h : stepById steps x = some s) : s ∈ steps ∧ s.id = x := by
  unfold stepById at h
  refine ⟨List.mem_of_find?_eq_some h, ?_⟩
  have := List.find?_some h
  simpa using this

theorem prevIds_of_mem (steps : List Step)
    (hnd : (steps.map Step.id).Nodup) (s : Step) (hs : s ∈ steps) :
    prevIds steps s.id = s.previous := by
  unfold prevIds
  rw [stepById_of_mem steps hnd s hs]
  rfl

theorem nextIds_of_mem (steps : List Step)
    (hnd : (steps.map Step.id).Nodup) (s : Step) (hs : s ∈ steps) :
    nextIds steps s.id = s.next := by
  unfold nextIds
  rw [stepById_of_mem steps hnd s hs]
  rfl

/-- The duplicate-id scan finds nothing exactly when the remaining list is
duplicate-free and disjoint from the already-seen ids. -/
theorem firstDuplicate_none_iff (l : List String) :
    ∀ seen, firstDuplicate l seen = none ↔
      (l.Nodup ∧ ∀ x ∈ l, x ∉ seen) := by
  induction l with
  | nil => intro seen; simp [firstDuplicate]
  | cons hd tl ih =>
    intro seen
    by_cases h : hd ∈ seen
    · simp only [firstDuplicate, if_pos h]
      constructor
      · intro hc; cases hc
      · rintro ⟨-, hall⟩
        exact absurd h (hall hd (List.mem_cons_self _ _))
    · simp only [firstDuplicate, if_neg h]
      rw [ih (hd :: seen)]
      constructor
      · rintro ⟨hnd, hall⟩
        refine ⟨List.nodup_cons.mpr ⟨?_, hnd⟩, ?_⟩
        · intro hc
          exact (hall hd hc) (List.mem_cons_self _ _)
        · intro x hx
          rcases List.mem_cons.mp hx with h' | h'
          · exact h' ▸ h
          · intro hc
            exact (hall x h') (List.mem_cons_of_mem _ hc)
      · rintro ⟨hnd, hall⟩
        rcases List.nodup_cons.mp hnd with ⟨hhd, htl⟩
        refine ⟨htl, ?_⟩
        intro x hx hc
        rcases List.mem_cons.mp hc with h' | h'
        · exact hhd (h' ▸ hx)
        · exact (hall x (List.mem_cons_of_mem _ hx)) h'

/-- Counting the dependencies not yet in `sorted`, after `a` is appended to
`sorted`: one fewer when `a` itself is a dependency. -/
theorem countP_append_one (l : List String) (hnd : l.Nodup)
    (sorted : List String) (a : String) (ha : a ∉ sorted) :
    l.countP (fun p => decide (p ∉ sorted)) =
      l.countP (fun p => decide (p ∉ sorted ++ [a])) +
        (if a ∈ l then 1 else 0) := by
  induction l with
  | nil => simp
  | cons hd tl ih =>
    rcases List.nodup_cons.mp hnd with ⟨hhd, htl⟩
    rw [List.countP_cons, List.countP_cons, ih htl]
    by_cases hx : hd = a
    · subst hx
      simp [ha, hhd]
    · have h3 : (a ∈ hd :: tl) ↔ (a ∈ tl) := by
        constructor
        · intro h
          rcases List.mem_cons.mp h with h | h
          · exact absurd h.symm hx
          · exact h
        · exact List.mem_cons_of_mem _
      by_cases hm : hd ∈ sorted
      · simp [hm, h3]
      · simp [hm, hx, h3]
        omega

/-- A predicate holding for exactly one list element holds for at most one. -/
theorem countP_one_unique (l : List String) (P : String → Bool)
    (h : l.countP P = 1) (a b : String) (ha : a ∈ l) (hPa : P a = true)
    (hb : b ∈ l) (hPb : P b = true) : a = b := by
  rw [List.countP_eq_length_filter] at h
  obtain ⟨c, hc⟩ := List.length_eq_one.mp h
  have h1 : a ∈ l.filter P := List.mem_filter.mpr ⟨ha, hPa⟩
  have h2 : b ∈ l.filter P := List.mem_filter.mpr ⟨hb, hPb⟩
  rw [hc] at h1 h2
  simp at h1 h2
  rw [h1, h2]

/-- Effect of one decrement pass on the in-degree map: every successor's
entry drops by one, everything else is untouched. -/
theorem kahnDecrement_get :
    ∀ (succs : List String) (inDeg : List (String × Int)), succs.Nodup →
      (∀ x ∈ succs, (amapGet inDeg x).isSome) →
      ∀ k, amapGet (kahnDecrement succs inDeg).1 k =
        if k ∈ succs then (amapGet inDeg k).map (fun d => d - 1)
        else amapGet inDeg k := by
  intro succs
  induction succs with
  | nil => intro inDeg _ _ k; simp [kahnDecrement]
  | cons succ rest ih =>
    intro inDeg hnd hsome k
    rcases List.nodup_cons.mp hnd with ⟨hsr, hrest⟩
    obtain ⟨d, hd⟩ :=
      Option.isSome_iff_exists.mp (hsome succ (List.mem_cons_self _ _))
    have hsome' : ∀ x ∈ rest, (amapGet (amapSet inDeg succ (d - 1)) x).isSome := by
      intro x hx
      rw [amapGet_amapSet]
      by_cases hxe : x = succ
      · simp [hxe]
      · rw [if_neg hxe]
        exact hsome x (List.mem_cons_of_mem _ hx)
    have hunfold : (kahnDecrement (succ :: rest) inDeg).1 =
        (kahnDecrement rest (amapSet inDeg succ (d - 1))).1 := by
      simp only [kahnDecrement, hd]
    rw [hunfold, ih (amapSet inDeg succ (d - 1)) hrest hsome' k]
    by_cases hk : k = succ
    · subst hk
      rw [if_neg (fun hc => hsr hc), if_pos (List.mem_cons_self _ _),
        amapGet_amapSet, if_pos rfl, hd]
      rfl
    · by_cases hk2 : k ∈ rest
      · rw [if_pos hk2, if_pos (List.mem_cons_of_mem _ hk2),
          amapGet_amapSet, if_neg hk]
      · rw [if_neg hk2, amapGet_amapSet, if_neg hk, if_neg]
        intro hc
        rcases List.mem_cons.mp hc with h | h
        · exact hk h
        · exact hk2 h

/-- The ids pushed onto the queue by one decrement pass are exactly the
successors whose in-degree was one. -/
theorem kahnDecrement_ready :
    ∀ (succs : List String) (inDeg : List (String × Int)), succs.Nodup →
      (∀ x ∈ succs, (amapGet inDeg x).isSome) →
      (kahnDecrement succs inDeg).2 =
        succs.filter (fun x => decide (amapGet inDeg x = some 1)) := by
  intro succs
  induction succs with
  | nil => intro inDeg _ _; simp [kahnDecrement]
  | cons succ rest ih =>
    intro inDeg hnd hsome
    rcases List.nodup_cons.mp hnd with ⟨hsr, hrest⟩
    obtain ⟨d, hd⟩ :=
      Option.isSome_iff_exists.mp (hsome succ (List.mem_cons_self _ _))
    have hsome' : ∀ x ∈ rest, (amapGet (amapSet inDeg succ (d - 1)) x).isSome := by
      intro x hx
      rw [amapGet_amapSet]
      by_cases hxe : x = succ
      · simp [hxe]
      · rw [if_neg hxe]
        exact hsome x (List.mem_cons_of_mem _ hx)
    have hunfold : (kahnDecrement (succ :: rest) inDeg).2 =
        (if d - 1 = 0 then [succ] else []) ++
          (kahnDecrement rest (amapSet inDeg succ (d - 1))).2 := by
      simp only [kahnDecrement, hd]
    rw [hunfold, ih (amapSet inDeg succ (d - 1)) hrest hsome']
    have hcongr : rest.filter (fun x => decide (amapGet (amapSet inDeg succ (d - 1)) x = some 1)) =
        rest.filter (fun x => decide (amapGet inDeg x = some 1)) := by
      apply List.filter_congr
      intro x hx
      have hne : ¬ x = succ := fun hc => hsr (hc ▸ hx)
      rw [amapGet_amapSet, if_neg hne]
    rw [hcongr, List.filter_cons]
    by_cases hone : d = 1
    · subst hone
      simp [hd]
    · have h1 : ¬ d - 1 = 0 := fun hc => hone (by omega)
      have h2 : ¬ amapGet inDeg succ = some 1 := by
        rw [hd]
        intro hc
        exact hone (Option.some_injective _ hc)
      simp [h1, h2]

/-- Value of the in-degree map built by folding `HashMap::insert` over the
steps: the entry for a key is determined by the last step with that id. -/
theorem foldl_amapSet_get (f : Step → Int) :
    ∀ (l : List Step) (acc : List (String × Int)) (k : String),
      amapGet (l.foldl (fun m s => amapSet m s.id (f s)) acc) k =
        match l.reverse.find? (fun s => s.id == k) with
        | some s => some (f s)
        | none => amapGet acc k := by
  intro l
  induction l with
  | nil => intro acc k; simp
  | cons hd tl ih =>
    intro acc k
    rw [List.foldl_cons, ih, List.reverse_cons, List.find?_append]
    cases hfind : tl.reverse.find? (fun s => s.id == k) with
    | some s => simp
    | none =>
      simp only [Option.none_orElse]
      by_cases hk : hd.id = k
      · subst hk
        simp [List.find?, amapGet_amapSet]
      · have hfhd : (fun s => s.id == k) hd = false := by simpa using hk
        simp only [List.find?, hfhd]
        rw [amapGet_amapSet, if_neg (fun hc => hk hc.symm)]
        rfl

/-- The initial in-degree of every step is the length of its `previous`
list (ids being duplicate-free). -/
theorem buildInDegree_get (steps : List Step)
    (hnd : (steps.map Step.id).Nodup) (s : Step) (hs : s ∈ steps) :
    amapGet (buildInDegree steps) s.id = some (s.previous.length : Int) := by
  unfold buildInDegree
  rw [foldl_amapSet_get]
  have hnd' : (steps.reverse.map Step.id).Nodup := by
    rw [List.map_reverse]
    exact List.nodup_reverse.mpr hnd
  rw [find_by_id_eq steps.reverse hnd' s (List.mem_reverse.mpr hs)]

/-- One iteration of the Kahn loop preserves the loop invariant. -/
theorem kahnInv_step (steps : List Step)
    (hnd : (steps.map Step.id).Nodup)
    (hcons : ∀ x ∈ steps, ∀ y ∈ steps, y.id ∈ x.previous ↔ x.id ∈ y.next)
    (hprevnd : ∀ s ∈ steps, s.previous.Nodup)
    (hnextnd : ∀ s ∈ steps, s.next.Nodup)
    (hnextsub : ∀ s ∈ steps, ∀ n ∈ s.next, n ∈ steps.map Step.id)
    (current : String) (rest : List String) (inDeg : List (String × Int))
    (sorted : List String)
    (inv : KahnInv steps (current :: rest) inDeg sorted) :
    KahnInv steps (rest ++ (kahnDecrement (nextIds steps current) inDeg).2)
      (kahnDecrement (nextIds steps current) inDeg).1 (sorted ++ [current]) := by
  have hcur_ids : current ∈ steps.map Step.id :=
    inv.queue_sub current (List.mem_cons_self _ _)
  obtain ⟨cs, hcs_mem, hcs_id⟩ := List.mem_map.mp hcur_ids
  have hsuccs : nextIds steps current = cs.next := by
    rw [← hcs_id]; exact nextIds_of_mem steps hnd cs hcs_mem
  have hsuccnd : (nextIds steps current).Nodup := by
    rw [hsuccs]; exact hnextnd cs hcs_mem
  have hsuccsub : ∀ n ∈ nextIds steps current, n ∈ steps.map Step.id := by
    rw [hsuccs]; exact hnextsub cs hcs_mem
  have hsome : ∀ x ∈ nextIds steps current, (amapGet inDeg x).isSome := by
    intro x hx
    obtain ⟨sx, hsx_mem, hsx_id⟩ := List.mem_map.mp (hsuccsub x hx)
    rw [← hsx_id, inv.degrees sx hsx_mem]
    rfl
  have hget := kahnDecrement_get (nextIds steps current) inDeg hsuccnd hsome
  have hready := kahnDecrement_ready (nextIds steps current) inDeg hsuccnd hsome
  have hcur_not_sorted : current ∉ sorted :=
    fun h => inv.disjoint current h (List.mem_cons_self _ _)
  have hkey : ∀ s ∈ steps,
      (s.id ∈ nextIds steps current ↔ current ∈ s.previous) := by
    intro s hs
    rw [hsuccs]
    have h := hcons s hs cs hcs_mem
    rw [hcs_id] at h
    exact h.symm
  have hmemready : ∀ x, x ∈ (kahnDecrement (nextIds steps current) inDeg).2 ↔
      (x ∈ nextIds steps current ∧ amapGet inDeg x = some 1) := by
    intro x
    rw [hready, List.mem_filter]
    simp
  have hreadyfacts : ∀ x ∈ (kahnDecrement (nextIds steps current) inDeg).2,
      ∃ sx, sx ∈ steps ∧ sx.id = x ∧
        sx.previous.countP (fun p => decide (p ∉ sorted)) = 1 := by
    intro x hx
    obtain ⟨hx1, hx2⟩ := (hmemready x).mp hx
    obtain ⟨sx, hsx_mem, hsx_id⟩ := List.mem_map.mp (hsuccsub x hx1)
    refine ⟨sx, hsx_mem, hsx_id, ?_⟩
    rw [← hsx_id, inv.degrees sx hsx_mem] at hx2
    have h := Option.some_injective _ hx2
    exact_mod_cast h
  have hqueue_zero : ∀ x ∈ current :: rest, ∀ sx, sx ∈ steps → sx.id = x →
      sx.previous.countP (fun p => decide (p ∉ sorted)) = 0 := by
    intro x hx sx hsx_mem hsx_id
    rw [List.countP_eq_zero]
    intro p hp
    have hps : p ∈ prevIds steps x := by
      rw [← hsx_id, prevIds_of_mem steps hnd sx hsx_mem]
      exact hp
    have h := inv.queue_ready x hx p hps
    simpa using h
  have hsorted_zero : ∀ x ∈ sorted, ∀ sx, sx ∈ steps → sx.id = x →
      sx.previous.countP (fun p => decide (p ∉ sorted)) = 0 := by
    intro x hx sx hsx_mem hsx_id
    rw [List.countP_eq_zero]
    intro p hp
    obtain ⟨i, hi⟩ := List.mem_iff_get.mp hx
    have hpi : p ∈ prevIds steps (sorted.get i) := by
      rw [hi, ← hsx_id, prevIds_of_mem steps hnd sx hsx_mem]
      exact hp
    obtain ⟨j, _, hj⟩ := inv.sorted_good i p hpi
    have hmem : p ∈ sorted := hj ▸ sorted.get_mem j.val j.isLt
    simpa using hmem
  have hready_not : ∀ x ∈ (kahnDecrement (nextIds steps current) inDeg).2,
      x ∉ sorted ∧ x ∉ current :: rest := by
    intro x hx
    obtain ⟨sx, hsx_mem, hsx_id, hcnt⟩ := hreadyfacts x hx
    constructor
    · intro hc
      have h := hsorted_zero x hc sx hsx_mem hsx_id
      omega
    · intro hc
      have h := hqueue_zero x hc sx hsx_mem hsx_id
      omega
  have hrest_nodup : rest.Nodup := (List.nodup_cons.mp inv.queue_nodup).2
  have hcur_not_rest : current ∉ rest := (List.nodup_cons.mp inv.queue_nodup).1
  refine ⟨?_, ?_, ?_, ?_, ?_, ?_, ?_, ?_⟩
  · -- sorted_nodup
    refine List.Nodup.append inv.sorted_nodup (List.nodup_singleton current) ?_
    intro a ha hb
    rw [List.mem_singleton] at hb
    subst hb
    exact hcur_not_sorted ha
  · -- queue_nodup
    refine List.Nodup.append hrest_nodup ?_ ?_
    · rw [hready]
      exact hsuccnd.filter _
    · intro a ha hb
      exact (hready_not a hb).2 (List.mem_cons_of_mem _ ha)
  · -- disjoint
    intro x hx hc
    rcases List.mem_append.mp hx with hx' | hx'
    · rcases List.mem_append.mp hc with hc' | hc'
      · exact inv.disjoint x hx' (List.mem_cons_of_mem _ hc')
      · exact (hready_not x hc').1 hx'
    · rw [List.mem_singleton] at hx'
      subst hx'
      rcases List.mem_append.mp hc with hc' | hc'
      · exact hcur_not_rest hc'
      · exact (hready_not x hc').2 (List.mem_cons_self _ _)
  · -- sorted_sub
    intro x hx
    rcases List.mem_append.mp hx with hx' | hx'
    · exact inv.sorted_sub x hx'
    · rw [List.mem_singleton] at hx'
      exact hx' ▸ hcur_ids
  · -- queue_sub
    intro x hx
    rcases List.mem_append.mp hx with hx' | hx'
    · exact inv.queue_sub x (List.mem_cons_of_mem _ hx')
    · exact hsuccsub x ((hmemready x).mp hx').1
  · -- queue_ready
    intro x hx p hp
    rcases List.mem_append.mp hx with hx' | hx'
    · exact List.mem_append_left _
        (inv.queue_ready x (List.mem_cons_of_mem _ hx') p hp)
    · obtain ⟨sx, hsx_mem, hsx_id, hcnt⟩ := hreadyfacts x hx'
      have hpprev : p ∈ sx.previous := by
        rw [← hsx_id, prevIds_of_mem steps hnd sx hsx_mem] at hp
        exact hp
      by_cases hps : p ∈ sorted
      · exact List.mem_append_left _ hps
      · have hcur_prev : current ∈ sx.previous := by
          have h := (hkey sx hsx_mem).mp
          rw [hsx_id] at h
          exact h ((hmemready x).mp hx').1
        have hpeq : p = current := by
          refine countP_one_unique sx.previous _ hcnt p current hpprev ?_
            hcur_prev ?_
          · simpa using hps
          · simpa using hcur_not_sorted
        rw [hpeq]
        exact List.mem_append_right _ (List.mem_singleton_self _)
  · -- sorted_good
    intro i p hp
    have hlen : (sorted ++ [current]).length = sorted.length + 1 := by simp
    by_cases hi : i.val < sorted.length
    · have hgeti : (sorted ++ [current]).get i = sorted.get ⟨i.val, hi⟩ := by
        rw [List.get_eq_getElem, List.get_eq_getElem]
        exact List.getElem_append_left hi
      rw [hgeti] at hp
      obtain ⟨j, hjlt, hj⟩ := inv.sorted_good ⟨i.val, hi⟩ p hp
      have hjlt' : j.val < (sorted ++ [current]).length := by
        rw [hlen]; omega
      refine ⟨⟨j.val, hjlt'⟩, hjlt, ?_⟩
      rw [List.get_eq_getElem]
      have hjs : j.val < sorted.length := j.isLt
      rw [List.getElem_append_left hjs]
      rw [List.get_eq_getElem] at hj
      exact hj
    · have hieq : i.val = sorted.length := by
        have h2 : i.val < sorted.length + 1 := lt_of_lt_of_eq i.isLt hlen
        omega
      have hgeti : (sorted ++ [current]).get i = current := by
        rw [List.get_eq_getElem]
        exact List.getElem_concat_length sorted current i.val hieq _
      rw [hgeti] at hp
      have hps : p ∈ sorted :=
        inv.queue_ready current (List.mem_cons_self _ _) p hp
      obtain ⟨j, hj⟩ := List.mem_iff_get.mp hps
      have hjlt' : j.val < (sorted ++ [current]).length := by
        rw [hlen]
        have := j.isLt
        omega
      refine ⟨⟨j.val, hjlt'⟩, by rw [hieq]; exact j.isLt, ?_⟩
      rw [List.get_eq_getElem]
      have hjs : j.val < sorted.length := j.isLt
      rw [List.getElem_append_left hjs]
      rw [List.get_eq_getElem] at hj
      exact hj
  · -- degrees
    intro s hs
    have hcount := countP_append_one s.previous (hprevnd s hs) sorted current
      hcur_not_sorted
    by_cases hin : s.id ∈ nextIds steps current
    · rw [hget s.id, if_pos hin, inv.degrees s hs]
      have hcur_prev : current ∈ s.previous := (hkey s hs).mp hin
      rw [if_pos hcur_prev] at hcount
      rw [Option.map_some']
      congr 1
      push_cast [hcount]
      ring
    · rw [hget s.id, if_neg hin, inv.degrees s hs]
      have hcur_prev : current ∉ s.previous := fun hc => hin ((hkey s hs).mpr hc)
      rw [if_neg hcur_prev, Nat.add_zero] at hcount
      rw [hcount]

/-- `List.contains` on strings is membership. -/
theorem contains_eq_mem (l : List String) (x : String) :
    l.contains x = true ↔ x ∈ l := by
  simp [List.contains, List.elem_iff]

/-- The Kahn loop carries its invariant to the emitted order, whatever the
fuel. -/
theorem kahnLoop_inv (steps : List Step)
    (hnd : (steps.map Step.id).Nodup)
    (hcons : ∀ x ∈ steps, ∀ y ∈ steps, y.id ∈ x.previous ↔ x.id ∈ y.next)
    (hprevnd : ∀ s ∈ steps, s.previous.Nodup)
    (hnextnd : ∀ s ∈ steps, s.next.Nodup)
    (hnextsub : ∀ s ∈ steps, ∀ n ∈ s.next, n ∈ steps.map Step.id) :
    ∀ (fuel : Nat) (queue : List String) (inDeg : List (String × Int))
      (sorted : List String), KahnInv steps queue inDeg sorted →
      KahnOut steps (kahnLoop steps fuel queue inDeg sorted) := by
  intro fuel
  induction fuel with
  | zero =>
    intro queue inDeg sorted inv
    exact ⟨inv.sorted_nodup, inv.sorted_sub, inv.sorted_good⟩
  | succ fuel ih =>
    intro queue inDeg sorted inv
    cases queue with
    | nil => exact ⟨inv.sorted_nodup, inv.sorted_sub, inv.sorted_good⟩
    | cons current rest =>
      rw [kahnLoop]
      exact ih _ _ _
        (kahnInv_step steps hnd hcons hprevnd hnextnd hnextsub current rest
          inDeg sorted inv)

/-- The order emitted by `kahnSortedOrder` is duplicate-free, consists of
step ids, and respects all dependencies. -/
theorem kahnSortedOrder_out (w : Workflow)
    (hnd : (w.steps.map Step.id).Nodup)
    (hcons : ∀ x ∈ w.steps, ∀ y ∈ w.steps, y.id ∈ x.previous ↔ x.id ∈ y.next)
    (hprevnd : ∀ s ∈ w.steps, s.previous.Nodup)
    (hnextnd : ∀ s ∈ w.steps, s.next.Nodup)
    (hnextsub : ∀ s ∈ w.steps, ∀ n ∈ s.next, n ∈ w.steps.map Step.id) :
    KahnOut w.steps (kahnSortedOrder w) := by
  apply kahnLoop_inv w.steps hnd hcons hprevnd hnextnd hnextsub
  refine ⟨List.nodup_nil, ?_, ?_, ?_, ?_, ?_, ?_, ?_⟩
  · -- queue_nodup
    have hsub : List.Sublist
        ((w.steps.filter (fun s => s.previous.isEmpty)).map Step.id)
        (w.steps.map Step.id) := (List.filter_sublist _).map _
    exact hnd.sublist hsub
  · -- disjoint
    intro x hx
    exact absurd hx (List.not_mem_nil x)
  · -- sorted_sub
    intro x hx
    exact absurd hx (List.not_mem_nil x)
  · -- queue_sub
    intro x hx
    obtain ⟨s, hs, hsid⟩ := List.mem_map.mp hx
    exact hsid ▸ List.mem_map_of_mem Step.id (List.mem_of_mem_filter hs)
  · -- queue_ready
    intro x hx p hp
    obtain ⟨s, hs, hsid⟩ := List.mem_map.mp hx
    have hempty : s.previous = [] :=
      List.isEmpty_iff.mp (by simpa using List.of_mem_filter hs)
    rw [← hsid, prevIds_of_mem w.steps hnd s (List.mem_of_mem_filter hs),
      hempty] at hp
    exact absurd hp (List.not_mem_nil p)
  · -- sorted_good
    intro i
    exact absurd i.isLt (by simp)
  · -- degrees
    intro s hs
    rw [buildInDegree_get w.steps hnd s hs]
    congr 1
    have hcnt : s.previous.countP (fun p => decide (p ∉ ([] : List String))) =
        s.previous.length :=
      List.countP_eq_length.mpr (by intro p _; simp)
    rw [hcnt]

/-- Success of `topologicalSort` means the Kahn order covered every step,
and the result's steps are the reordering of the input steps. -/
theorem topologicalSort_ok_elim (w w' : Workflow)
    (h : topologicalSort w = Except.ok w') :
    (kahnSortedOrder w).length = w.steps.length ∧
      w'.steps = (kahnSortedOrder w).map (lastStepWithId w.steps) := by
  unfold topologicalSort at h
  by_cases hlen : (kahnSortedOrder w).length ≠ w.steps.length
  · rw [if_pos hlen] at h
    cases h
  · rw [if_neg hlen] at h
    cases h
    exact ⟨by omega, rfl⟩

/-- An empty violation list implies that every `previous` and `next`
reference resolves to a step id. -/
theorem collectViolations_nil (w : Workflow) (h : collectViolations w = []) :
    (∀ s ∈ w.steps, ∀ p ∈ s.previous, p ∈ w.steps.map Step.id) ∧
    (∀ s ∈ w.steps, ∀ n ∈ s.next, n ∈ w.steps.map Step.id) := by
  unfold collectViolations at h
  have hall : ∀ s ∈ w.steps,
      validateStep s ++ refErrors (w.steps.map Step.id) s = [] := by
    intro s hs
    by_contra hne
    obtain ⟨e, he⟩ := List.exists_mem_of_ne_nil _ hne
    have : e ∈ w.steps.flatMap
        (fun s => validateStep s ++ refErrors (w.steps.map Step.id) s) :=
      List.mem_flatMap.mpr ⟨s, hs, he⟩
    rw [h] at this
    exact absurd this (List.not_mem_nil e)
  constructor
  · intro s hs p hp
    have hre : refErrors (w.steps.map Step.id) s = [] :=
      (List.append_eq_nil.mp (hall s hs)).2
    unfold refErrors at hre
    have h1 : (s.previous.filter
        (fun p => !((w.steps.map Step.id).contains p))).map
        (fun p => ValidationError.invalidReference s.id p) = [] :=
      (List.append_eq_nil.mp hre).1
    rw [List.map_eq_nil_iff] at h1
    by_contra hc
    have : p ∈ s.previous.filter
        (fun p => !((w.steps.map Step.id).contains p)) := by
      refine List.mem_filter.mpr ⟨hp, ?_⟩
      simp only [Bool.not_eq_true']
      rw [← Bool.not_eq_true]
      intro hcon
      exact hc ((contains_eq_mem _ _).mp hcon)
    rw [h1] at this
    exact absurd this (List.not_mem_nil p)
  · intro s hs n hn
    have hre : refErrors (w.steps.map Step.id) s = [] :=
      (List.append_eq_nil.mp (hall s hs)).2
    unfold refErrors at hre
    have h1 : (s.next.filter
        (fun p => !((w.steps.map Step.id).contains p))).map
        (fun p => ValidationError.invalidReference s.id p) = [] :=
      (List.append_eq_nil.mp hre).2
    rw [List.map_eq_nil_iff] at h1
    by_contra hc
    have : n ∈ s.next.filter
        (fun p => !((w.steps.map Step.id).contains p)) := by
      refine List.mem_filter.mpr ⟨hn, ?_⟩
      simp only [Bool.not_eq_true']
      rw [← Bool.not_eq_true]
      intro hcon
      exact hc ((contains_eq_mem _ _).mp hcon)
    rw [h1] at this
    exact absurd this (List.not_mem_nil n)


/-- A `true` result of the dependency check of `get_ready_steps` means every
dependency is in the completed set. -/
theorem depsComplete_spec (p : ExecutionPlanner) (s : Step)
    (h : p.depsComplete s = true) :
    ∀ dep ∈ s.previous, dep ∈ p.completedSteps := by
  intro dep hdep
  unfold ExecutionPlanner.depsComplete at h
  rcases Bool.or_eq_true_iff.mp h with h' | h'
  · rw [List.isEmpty_iff] at h'
    simp [h'] at hdep
  · have := (List.all_eq_true.mp h') dep hdep
    exact (contains_eq_mem _ _).mp this

/-- Every step in the ready list produced by the scanning loop either was in
the accumulator already or passed all the readiness checks. -/
theorem readyLoop_mem (p : ExecutionPlanner) :
    ∀ (steps ready : List Step) (alloc : Nat) (s : Step),
      s ∈ p.readyLoop steps ready alloc →
      s ∈ ready ∨
        (s ∈ steps ∧ p.depsComplete s = true ∧
          s.id ∉ p.completedSteps ∧ s.id ∉ p.runningSteps) := by
  intro steps
  induction steps with
  | nil => intro ready alloc s hs; exact Or.inl hs
  | cons hd tl ih =>
    intro ready alloc s hs
    rw [ExecutionPlanner.readyLoop] at hs
    by_cases h1 : hd.id ∈ p.completedSteps ∨ hd.id ∈ p.runningSteps
    · rw [if_pos h1] at hs
      rcases ih ready alloc s hs with h | ⟨h2, h3, h4⟩
      · exact Or.inl h
      · exact Or.inr ⟨List.mem_cons_of_mem _ h2, h3, h4⟩
    · rw [if_neg h1] at hs
      by_cases h2 : ¬ p.depsComplete hd
      · rw [if_pos h2] at hs
        rcases ih ready alloc s hs with h | ⟨h3, h4, h5⟩
        · exact Or.inl h
        · exact Or.inr ⟨List.mem_cons_of_mem _ h3, h4, h5⟩
      · rw [if_neg h2] at hs
        by_cases h3 : p.maxParallelJobs ≤ ready.length
        · rw [if_pos h3] at hs
          exact Or.inl hs
        · rw [if_neg h3] at hs
          by_cases h4 :
              p.maxSystemThreads < p.currentThreadsUsed + alloc + hd.threads
          · rw [if_pos h4] at hs
            rcases ih ready alloc s hs with h | ⟨h5, h6, h7⟩
            · exact Or.inl h
            · exact Or.inr ⟨List.mem_cons_of_mem _ h5, h6, h7⟩
          · rw [if_neg h4] at hs
            rcases ih (ready ++ [hd]) (alloc + hd.threads) s hs with
              h | ⟨h5, h6, h7⟩
            · rcases List.mem_append.mp h with h' | h'
              · exact Or.inl h'
              · have hshd : s = hd := by simpa using h'
                subst hshd
                refine Or.inr ⟨List.mem_cons_self _ _, ?_, ?_⟩
                · simpa using h2
                · constructor
                  · intro hc; exact h1 (Or.inl hc)
                  · intro hc; exact h1 (Or.inr hc)
            · exact Or.inr ⟨List.mem_cons_of_mem _ h5, h6, h7⟩

/-- `indexOf` is a lower bound for any position holding the element. -/
theorem indexOf_le_of_get (l : List String) :
    ∀ (j : Nat) (h : j < l.length) (a : String), l.get ⟨j, h⟩ = a →
      l.indexOf a ≤ j := by
  induction l with
  | nil => intro j h; simp at h
  | cons hd tl ih =>
    intro j h a hget
    cases j with
    | zero =>
      have hda : hd = a := by simpa using hget
      rw [List.indexOf_cons_eq tl hda]
    | succ j =>
      by_cases hda : hd = a
      · rw [List.indexOf_cons_eq tl hda]
        omega
      · rw [List.indexOf_cons_ne tl hda]
        have hlt : j < tl.length := by simpa using h
        have hget' : tl.get ⟨j, hlt⟩ = a := by simpa using hget
        have := ih j hlt a hget'
        omega

theorem refreshTools_steps (w : Workflow) : w.refreshTools.steps = w.steps :=
  rfl

/-- Destructuring a successful validation: the workflow was non-empty, its
ids were duplicate-free, no violation was collected, and the topological
sort succeeded. -/
theorem validateWorkflow_ok_elim (w w' : Workflow)
    (h : validateWorkflow w = Except.ok w') :
    w.steps ≠ [] ∧ (w.steps.map Step.id).Nodup ∧
      collectViolations w = [] ∧
      topologicalSort w.refreshTools = Except.ok w' := by
  unfold validateWorkflow at h
  by_cases hemp : w.steps.isEmpty
  · rw [if_pos hemp] at h
    cases h
  · rw [if_neg hemp] at h
    cases hdup : firstDuplicate (w.steps.map Step.id) [] with
    | some id =>
      rw [hdup] at h
      cases h
    | none =>
      rw [hdup] at h
      have hnd : (w.steps.map Step.id).Nodup :=
        ((firstDuplicate_none_iff _ []).mp hdup).1
      by_cases hviol : (collectViolations w).isEmpty
      · rw [if_pos hviol] at h
        cases htop : topologicalSort w.refreshTools with
        | error e =>
          rw [htop] at h
          cases h
        | ok w'' =>
          rw [htop] at h
          cases h
          refine ⟨?_, hnd, List.isEmpty_iff.mp hviol, rfl⟩
          intro hc
          rw [hc] at hemp
          exact hemp rfl
      · rw [if_neg hviol] at h
        cases h

theorem bool_eq_of_iff {a b : Bool} (h : a = true ↔ b = true) : a = b := by
  cases a <;> cases b <;> simp_all

theorem mem_setInsert (l : List String) (x y : String) :
    y ∈ setInsert l x ↔ y = x ∨ y ∈ l := by
  unfold setInsert
  by_cases h : x ∈ l
  · rw [if_pos h]
    constructor
    · exact Or.inr
    · rintro (rfl | hy)
      · exact h
      · exact hy
  · rw [if_neg h]
    exact List.mem_cons

theorem setInsert_nodup (l : List String) (x : String) (h : l.Nodup) :
    (setInsert l x).Nodup := by
  unfold setInsert
  by_cases hx : x ∈ l
  · rw [if_pos hx]; exact h
  · rw [if_neg hx]; exact List.nodup_cons.mpr ⟨hx, h⟩

theorem mem_setRemoved (l : List String) (x y : String) :
    y ∈ setRemoved l x ↔ y ∈ l ∧ y ≠ x := by
  unfold setRemoved
  rw [List.mem_filter]
  simp

theorem contains_cons (l : List String) (a y : String) :
    (a :: l).contains y = ((y == a) || l.contains y) := by
  by_cases h : y = a <;> simp [List.contains, h]

theorem contains_setRemoved (l : List String) (x y : String) :
    (setRemoved l x).contains y = (l.contains y && (y != x)) := by
  apply bool_eq_of_iff
  rw [contains_eq_mem, mem_setRemoved]
  constructor
  · rintro ⟨h1, h2⟩
    simp [contains_eq_mem, h1, h2]
  · intro h
    simp only [Bool.and_eq_true, bne_iff_ne] at h
    exact ⟨(contains_eq_mem _ _).mp h.1, h.2⟩

theorem sumThreads_append (l1 l2 : List Step) :
    sumThreads (l1 ++ l2) = sumThreads l1 + sumThreads l2 := by
  unfold sumThreads
  rw [List.map_append, List.sum_append]

/-- Inserting a fresh id into the running set adds exactly that step's
threads to the running total (ids being duplicate-free). -/
theorem sumThreads_filter_cons_id :
    ∀ (steps : List Step), (steps.map Step.id).Nodup →
      ∀ (x : Step), x ∈ steps → ∀ (running : List String),
        running.contains x.id = false →
        sumThreads (steps.filter (fun s => (x.id :: running).contains s.id)) =
          x.threads +
            sumThreads (steps.filter (fun s => running.contains s.id)) := by
  intro steps
  induction steps with
  | nil => intro _ x hx; simp at hx
  | cons hd tl ih =>
    intro hnd x hx running hxr
    have hnd2 : hd.id ∉ tl.map Step.id ∧ (tl.map Step.id).Nodup := by
      rw [List.map_cons, List.nodup_cons] at hnd
      exact hnd
    obtain ⟨hhd, htl⟩ := hnd2
    by_cases hxe : hd = x
    · subst hxe
      have htlcongr : tl.filter (fun s => (hd.id :: running).contains s.id) =
          tl.filter (fun s => running.contains s.id) := by
        apply List.filter_congr
        intro s hs
        have hne : s.id ≠ hd.id := by
          intro he
          exact hhd (he ▸ List.mem_map_of_mem Step.id hs)
        rw [contains_cons]
        simp [hne]
      rw [List.filter_cons, List.filter_cons]
      have h1 : ((hd.id :: running).contains hd.id) = true := by
        rw [contains_cons]; simp
      have h2 : (running.contains hd.id) = false := hxr
      simp only [h1, h2, if_pos, if_neg, Bool.false_eq_true,
        not_false_eq_true]
      rw [htlcongr]
      rw [show sumThreads (hd :: tl.filter (fun s => running.contains s.id)) =
        hd.threads + sumThreads (tl.filter (fun s => running.contains s.id))
        from rfl]
    · have hxtl : x ∈ tl := by
        rcases List.mem_cons.mp hx with h | h
        · exact absurd h.symm hxe
        · exact h
      have hne : hd.id ≠ x.id := by
        intro he
        exact hhd (he ▸ List.mem_map_of_mem Step.id hxtl)
      have hpred : ((x.id :: running).contains hd.id) =
          (running.contains hd.id) := by
        rw [contains_cons]
        simp [hne, Ne.symm hne]
      rw [List.filter_cons, List.filter_cons, hpred]
      cases hmem : running.contains hd.id with
      | true =>
        simp only [if_pos]
        rw [show ∀ t : List Step, sumThreads (hd :: t) =
          hd.threads + sumThreads t from fun t => rfl,
          show ∀ t : List Step, sumThreads (hd :: t) =
          hd.threads + sumThreads t from fun t => rfl,
          ih htl x hxtl running hxr]
        omega
      | false =>
        simp only [Bool.false_eq_true, if_neg, not_false_eq_true]
        exact ih htl x hxtl running hxr

/-- Removing an id from the running set removes exactly that step's
threads from the running total. -/
theorem sumThreads_filter_remove_id :
    ∀ (steps : List Step), (steps.map Step.id).Nodup →
      ∀ (x : Step), x ∈ steps → ∀ (running : List String),
        running.contains x.id = true →
        sumThreads (steps.filter (fun s => running.contains s.id)) =
          x.threads + sumThreads (steps.filter
            (fun s => (setRemoved running x.id).contains s.id)) := by
  intro steps
  induction steps with
  | nil => intro _ x hx; simp at hx
  | cons hd tl ih =>
    intro hnd x hx running hxr
    have hnd2 : hd.id ∉ tl.map Step.id ∧ (tl.map Step.id).Nodup := by
      rw [List.map_cons, List.nodup_cons] at hnd
      exact hnd
    obtain ⟨hhd, htl⟩ := hnd2
    by_cases hxe : hd = x
    · subst hxe
      have htlcongr : tl.filter
          (fun s => (setRemoved running hd.id).contains s.id) =
          tl.filter (fun s => running.contains s.id) := by
        apply List.filter_congr
        intro s hs
        have hne : s.id ≠ hd.id := by
          intro he
          exact hhd (he ▸ List.mem_map_of_mem Step.id hs)
        rw [contains_setRemoved]
        simp [hne]
      have h2 : ((setRemoved running hd.id).contains hd.id) = false := by
        rw [contains_setRemoved]
        simp
      rw [List.filter_cons, List.filter_cons, hxr, h2]
      simp only [if_pos, Bool.false_eq_true, if_neg, not_false_eq_true]
      rw [htlcongr]
      rfl
    · have hxtl : x ∈ tl := by
        rcases List.mem_cons.mp hx with h | h
        · exact absurd h.symm hxe
        · exact h
      have hne : hd.id ≠ x.id := by
        intro he
        exact hhd (he ▸ List.mem_map_of_mem Step.id hxtl)
      have hpred : ((setRemoved running x.id).contains hd.id) =
          (running.contains hd.id) := by
        rw [contains_setRemoved]
        simp [hne]
      rw [List.filter_cons, List.filter_cons, hpred]
      cases hmem : running.contains hd.id with
      | true =>
        simp only [if_pos]
        rw [show ∀ t : List Step, sumThreads (hd :: t) =
          hd.threads + sumThreads t from fun t => rfl,
          show ∀ t : List Step, sumThreads (hd :: t) =
          hd.threads + sumThreads t from fun t => rfl,
          ih htl x hxtl running hxr]
        omega
      | false =>
        simp only [Bool.false_eq_true, if_neg, not_false_eq_true]
        exact ih htl x hxtl running hxr

/-- The ready list is the accumulator followed by a sublist of the scanned
steps. -/
theorem readyLoop_split (p : ExecutionPlanner) :
    ∀ (steps ready : List Step) (alloc : Nat),
      ∃ t, p.readyLoop steps ready alloc = ready ++ t ∧
        List.Sublist t steps := by
  intro steps
  induction steps with
  | nil =>
    intro ready alloc
    exact ⟨[], by simp [ExecutionPlanner.readyLoop], List.nil_sublist []⟩
  | cons s rest ih =>
    intro ready alloc
    rw [ExecutionPlanner.readyLoop]
    by_cases h1 : s.id ∈ p.completedSteps ∨ s.id ∈ p.runningSteps
    · rw [if_pos h1]
      obtain ⟨t, ht, hsub⟩ := ih ready alloc
      exact ⟨t, ht, hsub.cons s⟩
    · rw [if_neg h1]
      by_cases h2 : ¬ p.depsComplete s
      · rw [if_pos h2]
        obtain ⟨t, ht, hsub⟩ := ih ready alloc
        exact ⟨t, ht, hsub.cons s⟩
      · rw [if_neg h2]
        by_cases h3 : p.maxParallelJobs ≤ ready.length
        · rw [if_pos h3]
          exact ⟨[], by simp, List.nil_sublist _⟩
        · rw [if_neg h3]
          by_cases h4 :
              p.maxSystemThreads < p.currentThreadsUsed + alloc + s.threads
          · rw [if_pos h4]
            obtain ⟨t, ht, hsub⟩ := ih ready alloc
            exact ⟨t, ht, hsub.cons s⟩
          · rw [if_neg h4]
            obtain ⟨t, ht, hsub⟩ := ih (ready ++ [s]) (alloc + s.threads)
            exact ⟨s :: t, by rw [ht, List.append_assoc]; rfl,
              hsub.cons₂ s⟩

/-- Budget soundness of the scanning loop: the emitted batch never pushes
the claimed total past the thread ceiling. -/
theorem readyLoop_budget (p : ExecutionPlanner) :
    ∀ (steps ready : List Step) (alloc : Nat),
      sumThreads ready = alloc →
      (ready = [] ∨
        p.currentThreadsUsed + alloc ≤ p.maxSystemThreads) →
      (p.readyLoop steps ready alloc = [] ∨
        p.currentThreadsUsed + sumThreads (p.readyLoop steps ready alloc) ≤
          p.maxSystemThreads) := by
  intro steps
  induction steps with
  | nil =>
    intro ready alloc hsum hok
    rw [ExecutionPlanner.readyLoop]
    rcases hok with h | h
    · exact Or.inl h
    · exact Or.inr (by rw [hsum]; exact h)
  | cons s rest ih =>
    intro ready alloc hsum hok
    rw [ExecutionPlanner.readyLoop]
    by_cases h1 : s.id ∈ p.completedSteps ∨ s.id ∈ p.runningSteps
    · rw [if_pos h1]; exact ih ready alloc hsum hok
    · rw [if_neg h1]
      by_cases h2 : ¬ p.depsComplete s
      · rw [if_pos h2]; exact ih ready alloc hsum hok
      · rw [if_neg h2]
        by_cases h3 : p.maxParallelJobs ≤ ready.length
        · rw [if_pos h3]
          rcases hok with h | h
          · exact Or.inl h
          · exact Or.inr (by rw [hsum]; exact h)
        · rw [if_neg h3]
          by_cases h4 :
              p.maxSystemThreads < p.currentThreadsUsed + alloc + s.threads
          · rw [if_pos h4]; exact ih ready alloc hsum hok
          · rw [if_neg h4]
            refine ih (ready ++ [s]) (alloc + s.threads) ?_ (Or.inr ?_)
            · rw [sumThreads_append, hsum]
              rfl
            · omega

/-- Steps that are completed, running, or blocked on a dependency are
scanned past without affecting the accumulator. -/
theorem readyLoop_all_skip (p : ExecutionPlanner) :
    ∀ (steps ready : List Step) (alloc : Nat),
      (∀ s ∈ steps, s.id ∈ p.completedSteps ∨ s.id ∈ p.runningSteps ∨
        p.depsComplete s = false) →
      p.readyLoop steps ready alloc = ready := by
  intro steps
  induction steps with
  | nil => intro ready alloc _; rw [ExecutionPlanner.readyLoop]
  | cons s rest ih =>
    intro ready alloc hall
    rw [ExecutionPlanner.readyLoop]
    rcases hall s (List.mem_cons_self _ _) with h | h | h
    · rw [if_pos (Or.inl h)]
      exact ih ready alloc (fun t ht => hall t (List.mem_cons_of_mem _ ht))
    · rw [if_pos (Or.inr h)]
      exact ih ready alloc (fun t ht => hall t (List.mem_cons_of_mem _ ht))
    · by_cases h1 : s.id ∈ p.completedSteps ∨ s.id ∈ p.runningSteps
      · rw [if_pos h1]
        exact ih ready alloc (fun t ht => hall t (List.mem_cons_of_mem _ ht))
      · rw [if_neg h1, if_pos (by simp [h])]
        exact ih ready alloc (fun t ht => hall t (List.mem_cons_of_mem _ ht))

/-- A pending step whose earlier list neighbours are all completed,
running, or dependency-blocked, whose own dependencies are satisfied, and
whose threads fit the free budget, is returned by `get_ready_steps`
(provided at least one parallel slot exists). -/
theorem first_eligible (p : ExecutionPlanner) (pre : List Step) (x : Step)
    (post : List Step) (hsteps : p.workflow.steps = pre ++ x :: post)
    (hskip : ∀ y ∈ pre, y.id ∈ p.completedSteps ∨ y.id ∈ p.runningSteps ∨
      p.depsComplete y = false)
    (hx1 : x.id ∉ p.completedSteps) (hx2 : x.id ∉ p.runningSteps)
    (hdep : p.depsComplete x = true)
    (hbud : p.currentThreadsUsed + x.threads ≤ p.maxSystemThreads)
    (hmj : 0 < p.maxParallelJobs) : x ∈ p.getReadySteps := by
  unfold ExecutionPlanner.getReadySteps
  rw [hsteps]
  have hskiploop : ∀ (pre' : List Step),
      (∀ y ∈ pre', y.id ∈ p.completedSteps ∨ y.id ∈ p.runningSteps ∨
        p.depsComplete y = false) →
      ∀ rest ready alloc, p.readyLoop (pre' ++ rest) ready alloc =
        p.readyLoop rest ready alloc := by
    intro pre'
    induction pre' with
    | nil => intro _ rest ready alloc; rfl
    | cons y pre'' ih =>
      intro hall rest ready alloc
      rw [List.cons_append, ExecutionPlanner.readyLoop]
      rcases hall y (List.mem_cons_self _ _) with h | h | h
      · rw [if_pos (Or.inl h)]
        exact ih (fun t ht => hall t (List.mem_cons_of_mem _ ht)) rest
          ready alloc
      · rw [if_pos (Or.inr h)]
        exact ih (fun t ht => hall t (List.mem_cons_of_mem _ ht)) rest
          ready alloc
      · by_cases h1 : y.id ∈ p.completedSteps ∨ y.id ∈ p.runningSteps
        · rw [if_pos h1]
          exact ih (fun t ht => hall t (List.mem_cons_of_mem _ ht)) rest
            ready alloc
        · rw [if_neg h1, if_pos (by simp [h])]
          exact ih (fun t ht => hall t (List.mem_cons_of_mem _ ht)) rest
            ready alloc
  rw [hskiploop pre hskip (x :: post) [] 0]
  rw [ExecutionPlanner.readyLoop]
  rw [if_neg (by rintro (h | h); exact hx1 h; exact hx2 h)]
  rw [if_neg (by simp [hdep])]
  rw [if_neg (by simp; omega)]
  rw [if_neg (by simp; omega)]
  obtain ⟨t, ht, -⟩ := readyLoop_split p post [x] x.threads
  simp only [List.nil_append, Nat.zero_add]
  rw [ht]
  exact List.mem_append_left _ (List.mem_singleton_self x)

/-- `resumeStep` changes only the completed set and the statuses. -/
theorem resumeStep_preserved (p : ExecutionPlanner) (y : String) :
    (p.resumeStep y).workflow = p.workflow ∧
    (p.resumeStep y).runningSteps = p.runningSteps ∧
    (p.resumeStep y).currentThreadsUsed = p.currentThreadsUsed ∧
    (p.resumeStep y).maxParallelJobs = p.maxParallelJobs ∧
    (p.resumeStep y).maxSystemThreads = p.maxSystemThreads := by
  unfold ExecutionPlanner.resumeStep
  by_cases h : p.workflow.steps.any (fun s => s.id == y)
  · rw [if_pos h]
    exact ⟨rfl, rfl, rfl, rfl, rfl⟩
  · rw [if_neg h]
    exact ⟨rfl, rfl, rfl, rfl, rfl⟩

theorem foldl_resume_preserved :
    ∀ (l : List String) (q : ExecutionPlanner),
      (l.foldl ExecutionPlanner.resumeStep q).workflow = q.workflow ∧
      (l.foldl ExecutionPlanner.resumeStep q).runningSteps = q.runningSteps ∧
      (l.foldl ExecutionPlanner.resumeStep q).currentThreadsUsed =
        q.currentThreadsUsed ∧
      (l.foldl ExecutionPlanner.resumeStep q).maxParallelJobs =
        q.maxParallelJobs ∧
      (l.foldl ExecutionPlanner.resumeStep q).maxSystemThreads =
        q.maxSystemThreads := by
  intro l
  induction l with
  | nil => intro q; exact ⟨rfl, rfl, rfl, rfl, rfl⟩
  | cons z rest ih =>
    intro q
    rw [List.foldl_cons]
    obtain ⟨h1, h2, h3, h4, h5⟩ := ih (q.resumeStep z)
    obtain ⟨g1, g2, g3, g4, g5⟩ := resumeStep_preserved q z
    exact ⟨h1.trans g1, h2.trans g2, h3.trans g3, h4.trans g4, h5.trans g5⟩

/-- The completed set stays inside the workflow's ids and duplicate-free
along the resume fold. -/
theorem foldl_resume_completed :
    ∀ (l : List String) (q : ExecutionPlanner),
      (∀ z ∈ q.completedSteps, z ∈ q.workflow.steps.map Step.id) →
      q.completedSteps.Nodup →
      (∀ z ∈ (l.foldl ExecutionPlanner.resumeStep q).completedSteps,
        z ∈ q.workflow.steps.map Step.id) ∧
      (l.foldl ExecutionPlanner.resumeStep q).completedSteps.Nodup := by
  intro l
  induction l with
  | nil => intro q hsub hnd; exact ⟨hsub, hnd⟩
  | cons z rest ih =>
    intro q hsub hnd
    rw [List.foldl_cons]
    have hw : (q.resumeStep z).workflow = q.workflow :=
      (resumeStep_preserved q z).1
    have hsub' : ∀ y ∈ (q.resumeStep z).completedSteps,
        y ∈ (q.resumeStep z).workflow.steps.map Step.id := by
      rw [hw]
      unfold ExecutionPlanner.resumeStep
      by_cases h : q.workflow.steps.any (fun s => s.id == z)
      · rw [if_pos h]
        intro y hy
        rcases (mem_setInsert _ _ _).mp hy with rfl | hy'
        · obtain ⟨s, hs, hsz⟩ := List.any_eq_true.mp h
          exact (eq_of_beq hsz) ▸ List.mem_map_of_mem Step.id hs
        · exact hsub y hy'
      · rw [if_neg h]
        exact hsub
    have hnd' : (q.resumeStep z).completedSteps.Nodup := by
      unfold ExecutionPlanner.resumeStep
      by_cases h : q.workflow.steps.any (fun s => s.id == z)
      · rw [if_pos h]
        exact setInsert_nodup _ _ hnd
      · rw [if_neg h]
        exact hnd
    have := ih (q.resumeStep z) hsub' hnd'
    rw [hw] at this
    exact this

/-- Once completed-and-skipped, always completed-and-skipped along the
resume fold. -/
theorem foldl_resume_keep :
    ∀ (l : List String) (q : ExecutionPlanner) (y : String),
      y ∈ q.completedSteps → q.stepStatus y = StepStatus.skipped →
      y ∈ (l.foldl ExecutionPlanner.resumeStep q).completedSteps ∧
      (l.foldl ExecutionPlanner.resumeStep q).stepStatus y =
        StepStatus.skipped := by
  intro l
  induction l with
  | nil => intro q y h1 h2; exact ⟨h1, h2⟩
  | cons z rest ih =>
    intro q y h1 h2
    rw [List.foldl_cons]
    refine ih (q.resumeStep z) y ?_ ?_
    · unfold ExecutionPlanner.resumeStep
      by_cases h : q.workflow.steps.any (fun s => s.id == z)
      · rw [if_pos h]
        exact (mem_setInsert _ _ _).mpr (Or.inr h1)
      · rw [if_neg h]
        exact h1
    · unfold ExecutionPlanner.resumeStep
      by_cases h : q.workflow.steps.any (fun s => s.id == z)
      · rw [if_pos h]
        unfold ExecutionPlanner.setStatus
        rw [if_pos h]
        show (if y = z then StepStatus.skipped else q.stepStatus y) =
          StepStatus.skipped
        by_cases hyz : y = z
        · rw [if_pos hyz]
        · rw [if_neg hyz]
          exact h2
      · rw [if_neg h]
        exact h2

/-- Every persisted id that names a workflow step ends up completed with
status `Skipped` after the resume fold. -/
theorem foldl_resume_covers :
    ∀ (l : List String) (q : ExecutionPlanner) (y : String), y ∈ l →
      q.workflow.steps.any (fun s => s.id == y) = true →
      y ∈ (l.foldl ExecutionPlanner.resumeStep q).completedSteps ∧
      (l.foldl ExecutionPlanner.resumeStep q).stepStatus y =
        StepStatus.skipped := by
  intro l
  induction l with
  | nil => intro q y hy; simp at hy
  | cons z rest ih =>
    intro q y hy hany
    rw [List.foldl_cons]
    rcases List.mem_cons.mp hy with rfl | hy'
    · refine foldl_resume_keep rest (q.resumeStep y) y ?_ ?_
      · unfold ExecutionPlanner.resumeStep
        rw [if_pos hany]
        exact (mem_setInsert _ _ _).mpr (Or.inl rfl)
      · unfold ExecutionPlanner.resumeStep
        rw [if_pos hany]
        unfold ExecutionPlanner.setStatus
        rw [if_pos hany]
        show (if y = y then StepStatus.skipped else q.stepStatus y) =
          StepStatus.skipped
        rw [if_pos rfl]
    · refine ih (q.resumeStep z) y hy' ?_
      rw [(resumeStep_preserved q z).1]
      exact hany

/-- Along the resume fold no status is ever set to `Running`. -/
theorem foldl_resume_status :
    ∀ (l : List String) (q : ExecutionPlanner) (y : String),
      (q.stepStatus y = StepStatus.pending ∨
        q.stepStatus y = StepStatus.skipped) →
      ((l.foldl ExecutionPlanner.resumeStep q).stepStatus y =
          StepStatus.pending ∨
        (l.foldl ExecutionPlanner.resumeStep q).stepStatus y =
          StepStatus.skipped) := by
  intro l
  induction l with
  | nil => intro q y h; exact h
  | cons z rest ih =>
    intro q y h
    rw [List.foldl_cons]
    refine ih (q.resumeStep z) y ?_
    unfold ExecutionPlanner.resumeStep
    by_cases hz : q.workflow.steps.any (fun s => s.id == z)
    · rw [if_pos hz]
      unfold ExecutionPlanner.setStatus
      rw [if_pos hz]
      show (if y = z then StepStatus.skipped else q.stepStatus y) =
          StepStatus.pending ∨
        (if y = z then StepStatus.skipped else q.stepStatus y) =
          StepStatus.skipped
      by_cases hyz : y = z
      · rw [if_pos hyz]
        exact Or.inr rfl
      · rw [if_neg hyz]
        exact h
    · rw [if_neg hz]
      exact h

theorem sumThreads_cons (s : Step) (l : List Step) :
    sumThreads (s :: l) = s.threads + sumThreads l := by
  unfold sumThreads
  rw [List.map_cons, List.sum_cons]

theorem runningThreads_of_nil (p : ExecutionPlanner)
    (h : p.runningSteps = []) : runningThreads p = 0 := by
  unfold runningThreads
  rw [h]
  have hf : p.workflow.steps.filter
      (fun s => (([] : List String)).contains s.id) = [] := by
    apply List.filter_eq_nil_iff.mpr
    intro s _
    simp [List.contains]
  rw [hf]
  rfl

theorem any_id_of_mem (steps : List Step) (s : Step) (hs : s ∈ steps) :
    steps.any (fun t => t.id == s.id) = true :=
  List.any_eq_true.mpr ⟨s, hs, by simp⟩

theorem contains_false_of_not_mem (l : List String) (x : String)
    (h : x ∉ l) : l.contains x = false := by
  rw [← Bool.not_eq_true]
  intro hc
  exact h ((contains_eq_mem _ _).mp hc)

/-- Every planner state reachable under the coordinator's discipline
satisfies the planner invariant. -/
theorem reach_inv (p : ExecutionPlanner) (b : List Step)
    (h : Reach p b) : PlannerInv p b := by
  induction h with
  | init w dryRun maxJobs maxSys hnd =>
    refine ⟨hnd, ?_, ?_, ?_, ?_, ?_, ?_, ?_, ?_, ?_, ?_⟩
    · exact (runningThreads_of_nil _ rfl).symm
    · exact Nat.zero_le _
    · intro hb
      exact absurd rfl hb
    · simp
    · intro x hx
      exact absurd hx (List.not_mem_nil x)
    · intro s _
      constructor
      · intro hc
        cases hc
      · intro hc
        exact absurd hc (List.not_mem_nil _)
    · intro x hx
      exact absurd hx (List.not_mem_nil x)
    · intro x hx
      exact absurd hx (List.not_mem_nil x)
    · exact List.nodup_nil
    · intro x hx
      exact absurd hx (List.not_mem_nil x)
  | resume w completed dryRun maxJobs maxSys hnd =>
    obtain ⟨hw, hr, hc, hmj, hms⟩ := foldl_resume_preserved completed
      (ExecutionPlanner.new w dryRun maxJobs maxSys)
    have hsubnd := foldl_resume_completed completed
      (ExecutionPlanner.new w dryRun maxJobs maxSys)
      (fun z hz => absurd hz (List.not_mem_nil z)) List.nodup_nil
    have hw2 : (ExecutionPlanner.fromState w completed dryRun maxJobs
        maxSys).workflow = w := hw
    have hr2 : (ExecutionPlanner.fromState w completed dryRun maxJobs
        maxSys).runningSteps = [] := hr
    have hc2 : (ExecutionPlanner.fromState w completed dryRun maxJobs
        maxSys).currentThreadsUsed = 0 := hc
    have hstat : ∀ y, ((ExecutionPlanner.fromState w completed dryRun maxJobs
          maxSys).stepStatus y = StepStatus.pending ∨
        (ExecutionPlanner.fromState w completed dryRun maxJobs
          maxSys).stepStatus y = StepStatus.skipped) :=
      fun y => foldl_resume_status completed
        (ExecutionPlanner.new w dryRun maxJobs maxSys) y (Or.inl rfl)
    have hcs1 : ∀ z ∈ (ExecutionPlanner.fromState w completed dryRun maxJobs
        maxSys).completedSteps, z ∈ w.steps.map Step.id := hsubnd.1
    have hcs2 : (ExecutionPlanner.fromState w completed dryRun maxJobs
        maxSys).completedSteps.Nodup := hsubnd.2
    refine ⟨?_, ?_, ?_, ?_, ?_, ?_, ?_, ?_, ?_, hcs2, ?_⟩
    · rw [hw2]
      exact hnd
    · rw [hc2]
      exact (runningThreads_of_nil _ hr2).symm
    · rw [hc2]
      exact Nat.zero_le _
    · intro hb
      exact absurd rfl hb
    · simp
    · intro x hx
      exact absurd hx (List.not_mem_nil x)
    · intro s _
      constructor
      · intro hst
        rcases hstat s.id with hx | hx <;> rw [hst] at hx <;> cases hx
      · intro hmem
        rw [hr2] at hmem
        exact absurd hmem (List.not_mem_nil _)
    · intro x hx
      rw [hr2] at hx
      exact absurd hx (List.not_mem_nil x)
    · intro x hx
      rw [hw2]
      exact hcs1 x hx
    · intro x hx
      rw [hr2] at hx
      exact absurd hx (List.not_mem_nil x)
  | query p b hreach ih =>
    refine ⟨ih.ids_nodup, ih.threads_eq, ih.threads_le, ?_, ?_, ?_,
      ih.status_running, ih.running_sub, ih.completed_sub,
      ih.completed_nodup, ih.run_comp_disjoint⟩
    · intro hne
      rcases readyLoop_budget p p.workflow.steps [] 0 rfl
        (Or.inl rfl) with h | h
      · exact absurd h hne
      · exact h
    · obtain ⟨t, ht, hsub⟩ := readyLoop_split p p.workflow.steps [] 0
      have hB : p.getReadySteps = t := by
        rw [ExecutionPlanner.getReadySteps, ht]
        rfl
      rw [hB]
      exact ih.ids_nodup.sublist (hsub.map Step.id)
    · intro x hx
      rcases readyLoop_mem p p.workflow.steps [] 0 x hx with h | ⟨h1, _, h3, h4⟩
      · exact absurd h (List.not_mem_nil x)
      · exact ⟨h1, h4, h3⟩
  | dispatch p s rest hreach ih =>
    obtain ⟨hmem_s, hs_nrun, hs_ncomp⟩ := ih.batch_fresh s
      (List.mem_cons_self _ _)
    have hfind : p.workflow.steps.find? (fun t => t.id == s.id) = some s :=
      find_by_id_eq _ ih.ids_nodup s hmem_s
    have hcur : (p.markStepRunning s.id).currentThreadsUsed =
        p.currentThreadsUsed + s.threads := by
      simp only [ExecutionPlanner.markStepRunning, hfind]
    have hmax : (p.markStepRunning s.id).maxSystemThreads =
        p.maxSystemThreads := rfl
    have hins : (p.markStepRunning s.id).runningSteps =
        s.id :: p.runningSteps := by
      show setInsert p.runningSteps s.id = _
      unfold setInsert
      rw [if_neg hs_nrun]
    have hcontf : p.runningSteps.contains s.id = false :=
      contains_false_of_not_mem _ _ hs_nrun
    have hbudget := ih.batch_le (by simp)
    rw [sumThreads_cons] at hbudget
    have hbn : (rest.map Step.id).Nodup ∧ s.id ∉ rest.map Step.id := by
      have h := ih.batch_nodup
      rw [List.map_cons, List.nodup_cons] at h
      exact ⟨h.2, h.1⟩
    refine ⟨ih.ids_nodup, ?_, ?_, ?_, hbn.1, ?_, ?_, ?_, ih.completed_sub,
      ih.completed_nodup, ?_⟩
    · rw [hcur]
      have hrt : runningThreads (p.markStepRunning s.id) =
          s.threads + runningThreads p := by
        unfold runningThreads
        rw [hins]
        exact sumThreads_filter_cons_id p.workflow.steps ih.ids_nodup s
          hmem_s p.runningSteps hcontf
      rw [hrt, ih.threads_eq]
      omega
    · rw [hcur, hmax]
      omega
    · intro _
      rw [hcur, hmax]
      omega
    · intro x hx
      obtain ⟨h1, h2, h3⟩ := ih.batch_fresh x (List.mem_cons_of_mem _ hx)
      refine ⟨h1, ?_, h3⟩
      rw [hins]
      intro hc
      rcases List.mem_cons.mp hc with hc' | hc'
      · exact hbn.2 (hc' ▸ List.mem_map_of_mem Step.id hx)
      · exact h2 hc'
    · intro t ht
      have hguard : p.workflow.steps.any (fun u => u.id == s.id) = true :=
        any_id_of_mem _ s hmem_s
      have hst : (p.markStepRunning s.id).stepStatus =
          fun y => if y = s.id then StepStatus.running
            else p.stepStatus y := by
        show p.setStatus s.id StepStatus.running = _
        unfold ExecutionPlanner.setStatus
        rw [if_pos hguard]
      rw [hst, hins]
      show (if t.id = s.id then StepStatus.running else p.stepStatus t.id) =
          StepStatus.running ↔ t.id ∈ s.id :: p.runningSteps
      by_cases hts : t.id = s.id
      · rw [if_pos hts]
        simp [hts]
      · rw [if_neg hts]
        rw [List.mem_cons]
        rw [ih.status_running t ht]
        constructor
        · exact Or.inr
        · rintro (hc | hc)
          · exact absurd hc hts
          · exact hc
    · intro x hx
      rw [hins] at hx
      rcases List.mem_cons.mp hx with rfl | hx'
      · exact List.mem_map_of_mem Step.id hmem_s
      · exact ih.running_sub x hx'
    · intro x hx
      rw [hins] at hx
      rcases List.mem_cons.mp hx with rfl | hx'
      · exact hs_ncomp
      · exact ih.run_comp_disjoint x hx'
  | complete p b x hreach hx ih =>
    obtain ⟨sx, hsx_mem, hsx_id⟩ := List.mem_map.mp (ih.running_sub x hx)
    have hfind : p.workflow.steps.find? (fun t => t.id == x) = some sx := by
      rw [← hsx_id]
      exact find_by_id_eq _ ih.ids_nodup sx hsx_mem
    have hcur : (p.markStepCompleted x).currentThreadsUsed =
        p.currentThreadsUsed - sx.threads := by
      simp only [ExecutionPlanner.markStepCompleted, hfind]
    have hmax : (p.markStepCompleted x).maxSystemThreads =
        p.maxSystemThreads := rfl
    have hconts : p.runningSteps.contains sx.id = true := by
      rw [hsx_id]
      exact (contains_eq_mem _ _).mpr hx
    have hrt : runningThreads p = sx.threads +
        runningThreads (p.markStepCompleted x) := by
      unfold runningThreads
      rw [show (p.markStepCompleted x).runningSteps =
        setRemoved p.runningSteps x from rfl,
        show (p.markStepCompleted x).workflow = p.workflow from rfl,
        ← hsx_id]
      exact sumThreads_filter_remove_id p.workflow.steps ih.ids_nodup sx
        hsx_mem p.runningSteps hconts
    refine ⟨ih.ids_nodup, ?_, ?_, ?_, ih.batch_nodup, ?_, ?_, ?_, ?_, ?_, ?_⟩
    · rw [hcur, ih.threads_eq, hrt]
      omega
    · rw [hcur, hmax]
      have := ih.threads_le
      omega
    · intro hb
      have := ih.batch_le hb
      rw [hcur, hmax]
      omega
    · intro y hy
      obtain ⟨h1, h2, h3⟩ := ih.batch_fresh y hy
      have hyx : y.id ≠ x := by
        intro he
        exact h2 (he ▸ hx)
      refine ⟨h1, ?_, ?_⟩
      · intro hc
        exact h2 ((mem_setRemoved _ _ _).mp hc).1
      · intro hc
        rcases (mem_setInsert _ _ _).mp hc with hc' | hc'
        · exact hyx hc'
        · exact h3 hc'
    · intro t ht
      have hguard : p.workflow.steps.any (fun u => u.id == x) = true := by
        rw [← hsx_id]
        exact any_id_of_mem _ sx hsx_mem
      have hst : (p.markStepCompleted x).stepStatus =
          fun y => if y = x then StepStatus.completed
            else p.stepStatus y := by
        show p.setStatus x StepStatus.completed = _
        unfold ExecutionPlanner.setStatus
        rw [if_pos hguard]
      rw [hst]
      show (if t.id = x then StepStatus.completed else p.stepStatus t.id) =
          StepStatus.running ↔ t.id ∈ setRemoved p.runningSteps x
      by_cases htx : t.id = x
      · rw [if_pos htx]
        constructor
        · intro hc
          cases hc
        · intro hc
          exact absurd htx ((mem_setRemoved _ _ _).mp hc).2
      · rw [if_neg htx, ih.status_running t ht, mem_setRemoved]
        constructor
        · intro hc
          exact ⟨hc, htx⟩
        · exact fun hc => hc.1
    · intro y hy
      exact ih.running_sub y ((mem_setRemoved _ _ _).mp hy).1
    · intro y hy
      rcases (mem_setInsert _ _ _).mp hy with rfl | hy'
      · exact ih.running_sub y hx
      · exact ih.completed_sub y hy'
    · exact setInsert_nodup _ _ ih.completed_nodup
    · intro y hy
      obtain ⟨hy1, hy2⟩ := (mem_setRemoved _ _ _).mp hy
      intro hc
      rcases (mem_setInsert _ _ _).mp hc with hc' | hc'
      · exact hy2 hc'
      · exact ih.run_comp_disjoint y hy1 hc'
  | fail p b x e hreach hx ih =>
    obtain ⟨sx, hsx_mem, hsx_id⟩ := List.mem_map.mp (ih.running_sub x hx)
    have hfind : p.workflow.steps.find? (fun t => t.id == x) = some sx := by
      rw [← hsx_id]
      exact find_by_id_eq _ ih.ids_nodup sx hsx_mem
    have hcur : (p.markStepFailed x e).currentThreadsUsed =
        p.currentThreadsUsed - sx.threads := by
      simp only [ExecutionPlanner.markStepFailed, hfind]
    have hmax2 : (p.markStepFailed x e).maxSystemThreads =
        p.maxSystemThreads := rfl
    have hconts : p.runningSteps.contains sx.id = true := by
      rw [hsx_id]
      exact (contains_eq_mem _ _).mpr hx
    have hrt : runningThreads p = sx.threads +
        runningThreads (p.markStepFailed x e) := by
      unfold runningThreads
      rw [show (p.markStepFailed x e).runningSteps =
        setRemoved p.runningSteps x from rfl,
        show (p.markStepFailed x e).workflow = p.workflow from rfl,
        ← hsx_id]
      exact sumThreads_filter_remove_id p.workflow.steps ih.ids_nodup sx
        hsx_mem p.runningSteps hconts
    refine ⟨ih.ids_nodup, ?_, ?_, ?_, ih.batch_nodup, ?_, ?_, ?_,
      ih.completed_sub, ih.completed_nodup, ?_⟩
    · rw [hcur, ih.threads_eq, hrt]
      omega
    · rw [hcur, hmax2]
      have := ih.threads_le
      omega
    · intro hb
      have := ih.batch_le hb
      rw [hcur, hmax2]
      omega
    · intro y hy
      obtain ⟨h1, h2, h3⟩ := ih.batch_fresh y hy
      refine ⟨h1, ?_, h3⟩
      intro hc
      exact h2 ((mem_setRemoved _ _ _).mp hc).1
    · intro t ht
      have hguard : p.workflow.steps.any (fun u => u.id == x) = true := by
        rw [← hsx_id]
        exact any_id_of_mem _ sx hsx_mem
      have hst : (p.markStepFailed x e).stepStatus =
          fun y => if y = x then StepStatus.failed e
            else p.stepStatus y := by
        show p.setStatus x (StepStatus.failed e) = _
        unfold ExecutionPlanner.setStatus
        rw [if_pos hguard]
      rw [hst]
      show (if t.id = x then StepStatus.failed e else p.stepStatus t.id) =
          StepStatus.running ↔ t.id ∈ setRemoved p.runningSteps x
      by_cases htx : t.id = x
      · rw [if_pos htx]
        constructor
        · intro hc
          cases hc
        · intro hc
          exact absurd htx ((mem_setRemoved _ _ _).mp hc).2
      · rw [if_neg htx, ih.status_running t ht, mem_setRemoved]
        constructor
        · intro hc
          exact ⟨hc, htx⟩
        · exact fun hc => hc.1
    · intro y hy
      exact ih.running_sub y ((mem_setRemoved _ _ _).mp hy).1
    · intro y hy
      exact ih.run_comp_disjoint y ((mem_setRemoved _ _ _).mp hy).1

/-! ## C1 -/

/-- C1: for every planner state, every step returned by `get_ready_steps`
has all ids of its `previous` list contained in the planner's completed set;
a step with an unsatisfied dependency is never returned as ready. -/
theorem getReadySteps_deps_completed (p : ExecutionPlanner) (s : Step)
    (hs : s ∈ p.getReadySteps) :
    ∀ dep ∈ s.previous, dep ∈ p.completedSteps := by
  rcases readyLoop_mem p p.workflow.steps [] 0 s hs with h | ⟨_, h2, _, _⟩
  · simp at h
  · exact depsComplete_spec p s h2

/-- Concrete instantiation of C1: in a two-step workflow where `step1` is
completed, `step2` is returned as ready and its dependency `step1` is indeed
in the completed set. -/
theorem getReadySteps_deps_completed_witness :
    (⟨"step2", "bash", "echo 2", [], [], ["step1"], [], 1⟩ : Step) ∈
      (ExecutionPlanner.markStepCompleted
        (ExecutionPlanner.new
          ⟨[⟨"step1", "bash", "echo 1", [], [], [], ["step2"], 1⟩,
            ⟨"step2", "bash", "echo 2", [], [], ["step1"], [], 1⟩], []⟩
          false 4 8) "step1").getReadySteps ∧
    ∀ dep ∈ (⟨"step2", "bash", "echo 2", [], [], ["step1"], [], 1⟩ : Step).previous,
      dep ∈ (ExecutionPlanner.markStepCompleted
        (ExecutionPlanner.new
          ⟨[⟨"step1", "bash", "echo 1", [], [], [], ["step2"], 1⟩,
            ⟨"step2", "bash", "echo 2", [], [], ["step1"], [], 1⟩], []⟩
          false 4 8) "step1").completedSteps :=
  ⟨by decide, getReadySteps_deps_completed _ _ (by decide)⟩

/-! ## C2 -/

/-- C2: for any workflow that passes validation (with consistent,
duplicate-free `previous`/`next` edge lists), the validated workflow's
step list is a permutation of the original steps in which every step comes
after all ids in its `previous` list. -/
theorem validate_sorts_topologically (w w' : Workflow)
    (hcons : ∀ x ∈ w.steps, ∀ y ∈ w.steps, y.id ∈ x.previous ↔ x.id ∈ y.next)
    (hprevnd : ∀ s ∈ w.steps, s.previous.Nodup)
    (hnextnd : ∀ s ∈ w.steps, s.next.Nodup)
    (hok : validateWorkflow w = Except.ok w') :
    w'.steps.Perm w.steps ∧
      ∀ i : Fin w'.steps.length, ∀ p ∈ (w'.steps.get i).previous,
        ∃ j : Fin w'.steps.length, j.val < i.val ∧ (w'.steps.get j).id = p := by
  obtain ⟨hne, hnd, hviol, htop⟩ := validateWorkflow_ok_elim w w' hok
  obtain ⟨hprevsub, hnextsub⟩ := collectViolations_nil w hviol
  obtain ⟨hlen, hsteps'⟩ := topologicalSort_ok_elim w.refreshTools w' htop
  have hks : kahnSortedOrder w.refreshTools = kahnSortedOrder w := rfl
  have hls : lastStepWithId w.refreshTools.steps = lastStepWithId w.steps :=
    rfl
  rw [hks] at hlen hsteps'
  rw [refreshTools_steps] at hlen
  rw [hls] at hsteps'
  obtain ⟨hLnd, hLsub, hLgood⟩ :=
    kahnSortedOrder_out w hnd hcons hprevnd hnextnd hnextsub
  have hperm : (kahnSortedOrder w).Perm (w.steps.map Step.id) := by
    have hsp := List.Nodup.subperm hLnd (fun x hx => hLsub x hx)
    refine hsp.perm_of_length_le ?_
    rw [hlen, List.length_map]
  have hmapid : (w.steps.map Step.id).map (lastStepWithId w.steps) =
      w.steps := by
    rw [List.map_map]
    have hcg : ∀ s ∈ w.steps,
        (lastStepWithId w.steps ∘ Step.id) s = id s := by
      intro s hs
      simp only [Function.comp_apply, id_eq]
      exact lastStepWithId_of_mem w.steps hnd s hs
    rw [List.map_congr_left hcg, List.map_id]
  rw [hsteps']
  constructor
  · have hpm := hperm.map (lastStepWithId w.steps)
    rw [hmapid] at hpm
    exact hpm
  · intro i p hp
    have hiL : i.val < (kahnSortedOrder w).length := by
      simpa using i.isLt
    have hget_eq :
        ((kahnSortedOrder w).map (lastStepWithId w.steps)).get i =
          lastStepWithId w.steps ((kahnSortedOrder w).get ⟨i.val, hiL⟩) := by
      rw [List.get_eq_getElem, List.get_eq_getElem, List.getElem_map]
    have hxL : (kahnSortedOrder w).get ⟨i.val, hiL⟩ ∈ kahnSortedOrder w :=
      (kahnSortedOrder w).get_mem _ _
    obtain ⟨sx, hsx_mem, hsx_id⟩ := List.mem_map.mp (hLsub _ hxL)
    have hgx : lastStepWithId w.steps ((kahnSortedOrder w).get ⟨i.val, hiL⟩) =
        sx := by
      rw [← hsx_id]
      exact lastStepWithId_of_mem w.steps hnd sx hsx_mem
    rw [hget_eq, hgx] at hp
    have hp' : p ∈ prevIds w.steps ((kahnSortedOrder w).get ⟨i.val, hiL⟩) := by
      rw [← hsx_id, prevIds_of_mem w.steps hnd sx hsx_mem]
      exact hp
    obtain ⟨j, hjlt, hj⟩ := hLgood ⟨i.val, hiL⟩ p hp'
    have hjmap : j.val <
        ((kahnSortedOrder w).map (lastStepWithId w.steps)).length := by
      rw [List.length_map]
      exact j.isLt
    refine ⟨⟨j.val, hjmap⟩, hjlt, ?_⟩
    have hget_eq2 :
        ((kahnSortedOrder w).map (lastStepWithId w.steps)).get ⟨j.val, hjmap⟩ =
          lastStepWithId w.steps ((kahnSortedOrder w).get j) := by
      rw [List.get_eq_getElem, List.get_eq_getElem, List.getElem_map]
    have hpL : p ∈ kahnSortedOrder w :=
      hj ▸ (kahnSortedOrder w).get_mem j.val j.isLt
    obtain ⟨sp, hsp_mem, hsp_id⟩ := List.mem_map.mp (hLsub p hpL)
    rw [hget_eq2, hj, ← hsp_id,
      lastStepWithId_of_mem w.steps hnd sp hsp_mem, hsp_id]

/-- Concrete instantiation of C2 on a two-step workflow listed out of
order: validation succeeds, the result is a permutation, and the dependency
`a` of step `b` appears earlier. -/
theorem validate_sorts_topologically_witness :
    ((∀ x ∈ wfTwo.steps, ∀ y ∈ wfTwo.steps,
        y.id ∈ x.previous ↔ x.id ∈ y.next) ∧
      (∀ s ∈ wfTwo.steps, s.previous.Nodup) ∧
      (∀ s ∈ wfTwo.steps, s.next.Nodup) ∧
      validateWorkflow wfTwo = Except.ok wfTwoSorted) ∧
    (wfTwoSorted.steps.Perm wfTwo.steps ∧
      ∀ i : Fin wfTwoSorted.steps.length,
        ∀ p ∈ (wfTwoSorted.steps.get i).previous,
          ∃ j : Fin wfTwoSorted.steps.length, j.val < i.val ∧
            (wfTwoSorted.steps.get j).id = p) :=
  ⟨⟨by decide, by decide, by decide, by decide⟩,
    validate_sorts_topologically wfTwo wfTwoSorted (by decide) (by decide)
      (by decide) (by decide)⟩

/-! ## C3 -/

/-- C3: in every planner state reachable by the coordinator's discipline,
the sum of `threads` over the steps in the `Running` state stays within the
system thread ceiling; `get_ready_steps` never returns a batch whose total
claimed threads plus in-flight usage exceeds the ceiling; and a step whose
`threads` exceeded the remaining budget is skipped only for that call — on
any call whose dependency and budget conditions are met it is returned. -/
theorem thread_ceiling_respected (p : ExecutionPlanner) (b : List Step)
    (h : Reach p b) :
    statusRunningThreads p ≤ p.maxSystemThreads ∧
    p.currentThreadsUsed + sumThreads p.getReadySteps ≤
      p.maxSystemThreads ∧
    (∀ pre x post, p.workflow.steps = pre ++ x :: post →
      (∀ y ∈ pre, y.id ∈ p.completedSteps ∨ y.id ∈ p.runningSteps ∨
        p.depsComplete y = false) →
      x.id ∉ p.completedSteps → x.id ∉ p.runningSteps →
      p.depsComplete x = true →
      p.currentThreadsUsed + x.threads ≤ p.maxSystemThreads →
      0 < p.maxParallelJobs → x ∈ p.getReadySteps) := by
  have inv := reach_inv p b h
  refine ⟨?_, ?_, ?_⟩
  · have hcongr : statusRunningThreads p = runningThreads p := by
      unfold statusRunningThreads runningThreads
      congr 1
      apply List.filter_congr
      intro s hs
      apply bool_eq_of_iff
      rw [decide_eq_true_eq, contains_eq_mem]
      exact inv.status_running s hs
    rw [hcongr, ← inv.threads_eq]
    exact inv.threads_le
  · rcases readyLoop_budget p p.workflow.steps [] 0 rfl
      (Or.inl rfl) with h0 | h0
    · have hB : p.getReadySteps = [] := h0
      rw [hB]
      have := inv.threads_le
      show p.currentThreadsUsed + 0 ≤ p.maxSystemThreads
      omega
    · exact h0
  · intro pre x post hsteps hskip h1 h2 h3 h4 h5
    exact first_eligible p pre x post hsteps hskip h1 h2 h3 h4 h5

/-- Concrete instantiation of C3 at the freshly constructed planner for the
two-step workflow. -/
theorem thread_ceiling_respected_witness :
    Reach (ExecutionPlanner.new wfTwo false 4 8) [] ∧
    (statusRunningThreads (ExecutionPlanner.new wfTwo false 4 8) ≤
        (ExecutionPlanner.new wfTwo false 4 8).maxSystemThreads ∧
      (ExecutionPlanner.new wfTwo false 4 8).currentThreadsUsed +
        sumThreads (ExecutionPlanner.new wfTwo false 4 8).getReadySteps ≤
          (ExecutionPlanner.new wfTwo false 4 8).maxSystemThreads ∧
      (∀ pre x post,
        (ExecutionPlanner.new wfTwo false 4 8).workflow.steps =
          pre ++ x :: post →
        (∀ y ∈ pre,
          y.id ∈ (ExecutionPlanner.new wfTwo false 4 8).completedSteps ∨
          y.id ∈ (ExecutionPlanner.new wfTwo false 4 8).runningSteps ∨
          (ExecutionPlanner.new wfTwo false 4 8).depsComplete y = false) →
        x.id ∉ (ExecutionPlanner.new wfTwo false 4 8).completedSteps →
        x.id ∉ (ExecutionPlanner.new wfTwo false 4 8).runningSteps →
        (ExecutionPlanner.new wfTwo false 4 8).depsComplete x = true →
        (ExecutionPlanner.new wfTwo false 4 8).currentThreadsUsed +
          x.threads ≤
          (ExecutionPlanner.new wfTwo false 4 8).maxSystemThreads →
        0 < (ExecutionPlanner.new wfTwo false 4 8).maxParallelJobs →
        x ∈ (ExecutionPlanner.new wfTwo false 4 8).getReadySteps)) :=
  ⟨Reach.init wfTwo false 4 8 (by decide),
    thread_ceiling_respected (ExecutionPlanner.new wfTwo false 4 8) []
      (Reach.init wfTwo false 4 8 (by decide))⟩

/-! ## C4 -/

/-- C4: a structurally valid workflow whose dependency graph contains a
cycle makes Kahn's sort produce an order shorter than the step count, and
`validate_workflow` returns the cyclic-dependency error rather than `Ok` —
so no step is ever dispatched for such a workflow. -/
theorem cyclic_workflow_rejected (w : Workflow) (x : String) (c : List String)
    (hne : w.steps ≠ [])
    (hnd : (w.steps.map Step.id).Nodup)
    (hviol : collectViolations w = [])
    (hcons : ∀ a ∈ w.steps, ∀ b ∈ w.steps, b.id ∈ a.previous ↔ a.id ∈ b.next)
    (hprevnd : ∀ s ∈ w.steps, s.previous.Nodup)
    (hnextnd : ∀ s ∈ w.steps, s.next.Nodup)
    (hcyc : IsDepCycle w.steps x c) :
    (kahnSortedOrder w).length < w.steps.length ∧
      validateWorkflow w =
        Except.error (WorkflowError.single ValidationError.cyclicDependency) := by
  obtain ⟨hprevsub, hnextsub⟩ := collectViolations_nil w hviol
  obtain ⟨hLnd, hLsub, hLgood⟩ :=
    kahnSortedOrder_out w hnd hcons hprevnd hnextnd hnextsub
  have hle : (kahnSortedOrder w).length ≤ w.steps.length := by
    have hsp := List.Nodup.subperm hLnd (fun y hy => hLsub y hy)
    have h := hsp.length_le
    rw [List.length_map] at h
    exact h
  have hneq : (kahnSortedOrder w).length ≠ w.steps.length := by
    intro hlen
    have hperm : (kahnSortedOrder w).Perm (w.steps.map Step.id) := by
      have hsp := List.Nodup.subperm hLnd (fun y hy => hLsub y hy)
      refine hsp.perm_of_length_le ?_
      rw [hlen, List.length_map]
    have hdep : ∀ a b, a ∈ prevIds w.steps b → b ∈ kahnSortedOrder w →
        a ∈ kahnSortedOrder w ∧
          (kahnSortedOrder w).indexOf a < (kahnSortedOrder w).indexOf b := by
      intro a b hab hb
      have hblt := List.indexOf_lt_length.mpr hb
      have hbget : (kahnSortedOrder w).get
          ⟨(kahnSortedOrder w).indexOf b, hblt⟩ = b := List.indexOf_get hblt
      have hp : a ∈ prevIds w.steps ((kahnSortedOrder w).get
          ⟨(kahnSortedOrder w).indexOf b, hblt⟩) := by
        rw [hbget]
        exact hab
      obtain ⟨j, hjlt, hj⟩ :=
        hLgood ⟨(kahnSortedOrder w).indexOf b, hblt⟩ a hp
      have haL : a ∈ kahnSortedOrder w :=
        hj ▸ (kahnSortedOrder w).get_mem j.val j.isLt
      have hale : (kahnSortedOrder w).indexOf a ≤ j.val :=
        indexOf_le_of_get (kahnSortedOrder w) j.val j.isLt a hj
      exact ⟨haL, lt_of_le_of_lt hale hjlt⟩
    have hchain : ∀ (l : List String) (a z : String),
        List.Chain (fun u v => u ∈ prevIds w.steps v) a l →
        l.getLast? = some z → z ∈ kahnSortedOrder w →
        a ∈ kahnSortedOrder w ∧
          (kahnSortedOrder w).indexOf a < (kahnSortedOrder w).indexOf z := by
      intro l
      induction l with
      | nil =>
        intro a z _ hlast
        simp at hlast
      | cons y l' ih =>
        intro a z hch hlast hzL
        rcases List.chain_cons.mp hch with ⟨hay, hch'⟩
        cases l' with
        | nil =>
          have hz : y = z := by simpa using hlast
          subst hz
          exact hdep a y hay hzL
        | cons u l'' =>
          have hlast' : (u :: l'').getLast? = some z := by
            rw [List.getLast?_cons_cons] at hlast
            exact hlast
          obtain ⟨hyL, hylt⟩ := ih y z hch' hlast' hzL
          obtain ⟨haL, halt⟩ := hdep a y hay hyL
          exact ⟨haL, lt_trans halt hylt⟩
    have hlastedge : ∀ (l : List String) (a z : String),
        List.Chain (fun u v => u ∈ prevIds w.steps v) a l →
        l.getLast? = some z → ∃ u, u ∈ prevIds w.steps z := by
      intro l
      induction l with
      | nil =>
        intro a z _ hlast
        simp at hlast
      | cons y l' ih =>
        intro a z hch hlast
        rcases List.chain_cons.mp hch with ⟨hay, hch'⟩
        cases l' with
        | nil =>
          have hz : y = z := by simpa using hlast
          subst hz
          exact ⟨a, hay⟩
        | cons u l'' =>
          have hlast' : (u :: l'').getLast? = some z := by
            rw [List.getLast?_cons_cons] at hlast
            exact hlast
          exact ih y z hch' hlast'
    obtain ⟨u, hu⟩ := hlastedge (c ++ [x]) x x hcyc (List.getLast?_concat _)
    have hxids : x ∈ w.steps.map Step.id := by
      unfold prevIds at hu
      cases hsb : stepById w.steps x with
      | none =>
        rw [hsb] at hu
        simp at hu
      | some s =>
        obtain ⟨hmem, hid⟩ := stepById_eq_some _ _ _ hsb
        exact hid ▸ List.mem_map_of_mem Step.id hmem
    have hxL : x ∈ kahnSortedOrder w := hperm.mem_iff.mpr hxids
    obtain ⟨-, hxx⟩ :=
      hchain (c ++ [x]) x x hcyc (List.getLast?_concat _) hxL
    exact lt_irrefl _ hxx
  have hlt : (kahnSortedOrder w).length < w.steps.length :=
    lt_of_le_of_ne hle hneq
  refine ⟨hlt, ?_⟩
  have hsort : topologicalSort w.refreshTools =
      Except.error ValidationError.cyclicDependency := by
    have hcond : (kahnSortedOrder w.refreshTools).length ≠
        w.refreshTools.steps.length := by
      rw [show kahnSortedOrder w.refreshTools = kahnSortedOrder w from rfl,
        refreshTools_steps]
      omega
    unfold topologicalSort
    rw [if_pos hcond]
  unfold validateWorkflow
  rw [if_neg (fun h => hne (List.isEmpty_iff.mp h))]
  have hdup : firstDuplicate (w.steps.map Step.id) [] = none :=
    (firstDuplicate_none_iff _ []).mpr
      ⟨hnd, fun y _ hy => List.not_mem_nil y hy⟩
  rw [hdup]
  have hviol' : (collectViolations w).isEmpty = true := by
    rw [hviol]
    rfl
  rw [if_pos hviol', hsort]

/-- Concrete instantiation of C4: the two-step mutual dependency `a ↔ b`
yields a Kahn order shorter than the step count and the cyclic-dependency
validation error. -/
theorem cyclic_workflow_rejected_witness :
    (wfCycle.steps ≠ [] ∧ (wfCycle.steps.map Step.id).Nodup ∧
      collectViolations wfCycle = [] ∧
      IsDepCycle wfCycle.steps "a" ["b"]) ∧
    ((kahnSortedOrder wfCycle).length < wfCycle.steps.length ∧
      validateWorkflow wfCycle =
        Except.error (WorkflowError.single ValidationError.cyclicDependency)) :=
  ⟨⟨by decide, by decide, by decide,
      List.Chain.cons (by decide) (List.Chain.cons (by decide)
        List.Chain.nil)⟩,
    cyclic_workflow_rejected wfCycle "a" ["b"] (by decide) (by decide)
      (by decide) (by decide) (by decide) (by decide)
      (List.Chain.cons (by decide) (List.Chain.cons (by decide)
        List.Chain.nil))⟩

/-! ## C6 -/

/-- C6: when the persisted completed set covers every step id of a
(duplicate-free) workflow, the planner built by `from_state` has no ready
steps, reports no work remaining, and marks every step `Skipped` — a
repeated invocation executes zero steps. -/
theorem from_state_fully_completed (w : Workflow) (completed : List String)
    (dryRun : Bool) (maxJobs maxSys : Nat)
    (hnd : (w.steps.map Step.id).Nodup)
    (hcov : ∀ s ∈ w.steps, s.id ∈ completed) :
    (ExecutionPlanner.fromState w completed dryRun maxJobs
      maxSys).getReadySteps = [] ∧
    (ExecutionPlanner.fromState w completed dryRun maxJobs
      maxSys).hasWorkRemaining = false ∧
    ∀ s ∈ w.steps, (ExecutionPlanner.fromState w completed dryRun maxJobs
      maxSys).stepStatus s.id = StepStatus.skipped := by
  have hw2 : (ExecutionPlanner.fromState w completed dryRun maxJobs
      maxSys).workflow = w :=
    (foldl_resume_preserved completed
      (ExecutionPlanner.new w dryRun maxJobs maxSys)).1
  have hcovers : ∀ s ∈ w.steps,
      s.id ∈ (ExecutionPlanner.fromState w completed dryRun maxJobs
        maxSys).completedSteps ∧
      (ExecutionPlanner.fromState w completed dryRun maxJobs
        maxSys).stepStatus s.id = StepStatus.skipped := by
    intro s hs
    exact foldl_resume_covers completed
      (ExecutionPlanner.new w dryRun maxJobs maxSys) s.id (hcov s hs)
      (any_id_of_mem w.steps s hs)
  have hsubnd := foldl_resume_completed completed
    (ExecutionPlanner.new w dryRun maxJobs maxSys)
    (fun z hz => absurd hz (List.not_mem_nil z)) List.nodup_nil
  have hCsub : ∀ z ∈ (ExecutionPlanner.fromState w completed dryRun maxJobs
      maxSys).completedSteps, z ∈ w.steps.map Step.id := hsubnd.1
  have hCnd : (ExecutionPlanner.fromState w completed dryRun maxJobs
      maxSys).completedSteps.Nodup := hsubnd.2
  refine ⟨?_, ?_, fun s hs => (hcovers s hs).2⟩
  · unfold ExecutionPlanner.getReadySteps
    apply readyLoop_all_skip
    intro s hs
    rw [hw2] at hs
    exact Or.inl (hcovers s hs).1
  · have hids_sub : ∀ z ∈ w.steps.map Step.id,
        z ∈ (ExecutionPlanner.fromState w completed dryRun maxJobs
          maxSys).completedSteps := by
      intro z hz
      obtain ⟨s, hs, hsz⟩ := List.mem_map.mp hz
      exact hsz ▸ (hcovers s hs).1
    have hle1 := (List.Nodup.subperm hCnd
      (fun z hz => hCsub z hz)).length_le
    have hle2 := (List.Nodup.subperm hnd
      (fun z hz => hids_sub z hz)).length_le
    have hlen : (ExecutionPlanner.fromState w completed dryRun maxJobs
        maxSys).completedSteps.length = w.steps.length := by
      rw [List.length_map] at hle1 hle2
      omega
    unfold ExecutionPlanner.hasWorkRemaining
    rw [hlen, hw2]
    simp

/-- Concrete instantiation of C6: resuming the two-step workflow from a
state listing both step ids yields a planner with nothing to do and both
steps `Skipped`. -/
theorem from_state_fully_completed_witness :
    ((wfTwo.steps.map Step.id).Nodup ∧
      ∀ s ∈ wfTwo.steps, s.id ∈ ["a", "b"]) ∧
    ((ExecutionPlanner.fromState wfTwo ["a", "b"] false 4
        8).getReadySteps = [] ∧
      (ExecutionPlanner.fromState wfTwo ["a", "b"] false 4
        8).hasWorkRemaining = false ∧
      ∀ s ∈ wfTwo.steps, (ExecutionPlanner.fromState wfTwo ["a", "b"] false
        4 8).stepStatus s.id = StepStatus.skipped) :=
  ⟨⟨by decide, by decide⟩,
    from_state_fully_completed wfTwo ["a", "b"] false 4 8 (by decide)
      (by decide)⟩

/-! ## C10 -/

/-- C10: after `mark_step_failed` the step is in neither the completed nor
the running set, `has_work_remaining` stays true, and a subsequent
`get_ready_steps` call whose dependency and budget conditions are met
returns the step again — at the planner's interface a failed step is not
terminal. -/
theorem failed_step_redispatchable (p : ExecutionPlanner) (b : List Step)
    (hreach : Reach p b) (s e : String) (hrun : s ∈ p.runningSteps) :
    s ∉ (p.markStepFailed s e).completedSteps ∧
    s ∉ (p.markStepFailed s e).runningSteps ∧
    (p.markStepFailed s e).hasWorkRemaining = true ∧
    (∀ pre x post,
      (p.markStepFailed s e).workflow.steps = pre ++ x :: post →
      x.id = s →
      (∀ y ∈ pre, y.id ∈ (p.markStepFailed s e).completedSteps ∨
        y.id ∈ (p.markStepFailed s e).runningSteps ∨
        (p.markStepFailed s e).depsComplete y = false) →
      (p.markStepFailed s e).depsComplete x = true →
      (p.markStepFailed s e).currentThreadsUsed + x.threads ≤
        (p.markStepFailed s e).maxSystemThreads →
      0 < (p.markStepFailed s e).maxParallelJobs →
      x ∈ (p.markStepFailed s e).getReadySteps) := by
  have inv := reach_inv p b hreach
  have hncomp : s ∉ (p.markStepFailed s e).completedSteps :=
    inv.run_comp_disjoint s hrun
  have hnrun : s ∉ (p.markStepFailed s e).runningSteps := by
    intro hc
    exact ((mem_setRemoved _ _ _).mp hc).2 rfl
  refine ⟨hncomp, hnrun, ?_, ?_⟩
  · have hsub : ∀ z ∈ p.completedSteps, z ∈ p.workflow.steps.map Step.id :=
      inv.completed_sub
    have hs_ids : s ∈ p.workflow.steps.map Step.id := inv.running_sub s hrun
    have hsp := List.Nodup.subperm inv.completed_nodup
      (fun z hz => hsub z hz)
    have hlen_le := hsp.length_le
    have hne : p.completedSteps.length ≠
        (p.workflow.steps.map Step.id).length := by
      intro he
      have hperm := hsp.perm_of_length_le (le_of_eq he.symm)
      exact hncomp (hperm.mem_iff.mpr hs_ids)
    unfold ExecutionPlanner.hasWorkRemaining
    have hlt : p.completedSteps.length < p.workflow.steps.length := by
      rw [List.length_map] at hlen_le hne
      omega
    exact decide_eq_true hlt
  · intro pre x post hsteps hxid hskip hdep hbud hmj
    refine first_eligible (p.markStepFailed s e) pre x post hsteps hskip
      ?_ ?_ hdep hbud hmj
    · rw [hxid]
      exact hncomp
    · rw [hxid]
      exact hnrun

/-- Concrete instantiation of C10: dispatch step `a` of the two-step
workflow, fail it, and observe that it is neither completed nor running,
work remains, and it is returned as ready again. -/
theorem failed_step_redispatchable_witness :
    ("a" ∈ (ExecutionPlanner.markStepRunning
        (ExecutionPlanner.new wfTwo false 4 8) "a").runningSteps) ∧
    ("a" ∉ ((ExecutionPlanner.markStepRunning
        (ExecutionPlanner.new wfTwo false 4 8) "a").markStepFailed "a"
        "boom").completedSteps ∧
      "a" ∉ ((ExecutionPlanner.markStepRunning
        (ExecutionPlanner.new wfTwo false 4 8) "a").markStepFailed "a"
        "boom").runningSteps ∧
      ((ExecutionPlanner.markStepRunning
        (ExecutionPlanner.new wfTwo false 4 8) "a").markStepFailed "a"
        "boom").hasWorkRemaining = true ∧
      (∀ pre x post,
        ((ExecutionPlanner.markStepRunning
          (ExecutionPlanner.new wfTwo false 4 8) "a").markStepFailed "a"
          "boom").workflow.steps = pre ++ x :: post →
        x.id = "a" →
        (∀ y ∈ pre, y.id ∈ ((ExecutionPlanner.markStepRunning
            (ExecutionPlanner.new wfTwo false 4 8) "a").markStepFailed "a"
            "boom").completedSteps ∨
          y.id ∈ ((ExecutionPlanner.markStepRunning
            (ExecutionPlanner.new wfTwo false 4 8) "a").markStepFailed "a"
            "boom").runningSteps ∨
          ((ExecutionPlanner.markStepRunning
            (ExecutionPlanner.new wfTwo false 4 8) "a").markStepFailed "a"
            "boom").depsComplete y = false) →
        ((ExecutionPlanner.markStepRunning
          (ExecutionPlanner.new wfTwo false 4 8) "a").markStepFailed "a"
          "boom").depsComplete x = true →
        ((ExecutionPlanner.markStepRunning
          (ExecutionPlanner.new wfTwo false 4 8) "a").markStepFailed "a"
          "boom").currentThreadsUsed + x.threads ≤
          ((ExecutionPlanner.markStepRunning
            (ExecutionPlanner.new wfTwo false 4 8) "a").markStepFailed "a"
            "boom").maxSystemThreads →
        0 < ((ExecutionPlanner.markStepRunning
          (ExecutionPlanner.new wfTwo false 4 8) "a").markStepFailed "a"
          "boom").maxParallelJobs →
        x ∈ ((ExecutionPlanner.markStepRunning
          (ExecutionPlanner.new wfTwo false 4 8) "a").markStepFailed "a"
          "boom").getReadySteps)) := by
  have reach0 : Reach (ExecutionPlanner.new wfTwo false 4 8) [] :=
    Reach.init wfTwo false 4 8 (by decide)
  have reach1 : Reach (ExecutionPlanner.new wfTwo false 4 8)
      ((ExecutionPlanner.new wfTwo false 4 8).getReadySteps) :=
    Reach.query _ [] reach0
  have hbatch : (ExecutionPlanner.new wfTwo false 4 8).getReadySteps =
      [⟨"a", "bash", "run a", [], [], [], ["b"], 1⟩] := by decide
  rw [hbatch] at reach1
  have reach2 : Reach (ExecutionPlanner.markStepRunning
      (ExecutionPlanner.new wfTwo false 4 8) "a") [] :=
    Reach.dispatch _ _ _ reach1
  have hrun : "a" ∈ (ExecutionPlanner.markStepRunning
      (ExecutionPlanner.new wfTwo false 4 8) "a").runningSteps := by decide
  exact ⟨hrun, failed_step_redispatchable _ [] reach2 "a" "boom" hrun⟩

/-! ## C7 -/

/-- Counterexample to C7 as stated: on a workflow whose first step has an
empty tool and whose second step duplicates the first's id,
`validate_workflow` returns the single duplicate-id error and never reports
the empty-tool violation, so violations are not all collected into one
combined error. -/
theorem duplicate_id_fail_fast_counterexample :
    validateWorkflow wfDupTool =
      Except.error (WorkflowError.single (ValidationError.duplicateStepId "a")) ∧
    ValidationError.emptyTool "a" ∈ collectViolations wfDupTool := by decide

/-- C7 (amended): `validate_workflow` fails fast on an empty workflow and on
the first duplicated step id; only the per-step field violations (an empty
id suppressing that step's further checks, an empty tool, an empty command)
and the dangling `previous`/`next` references are collected across all
steps and reported together in one combined error. -/
theorem violations_collected_and_combined (w : Workflow)
    (hne : w.steps.isEmpty = false)
    (hnd : firstDuplicate (w.steps.map Step.id) [] = none)
    (hviol : (collectViolations w).isEmpty = false) :
    validateWorkflow w =
      Except.error (WorkflowError.combined (collectViolations w)) ∧
    (∀ s ∈ w.steps, isBlank s.id = false → isBlank s.tool = true →
      ValidationError.emptyTool s.id ∈ collectViolations w) ∧
    (∀ s ∈ w.steps, isBlank s.id = false → isBlank s.command = true →
      ValidationError.emptyCommand s.id ∈ collectViolations w) ∧
    (∀ s ∈ w.steps, ∀ p ∈ s.previous, p ∉ w.steps.map Step.id →
      ValidationError.invalidReference s.id p ∈ collectViolations w) ∧
    (∀ s ∈ w.steps, ∀ n ∈ s.next, n ∉ w.steps.map Step.id →
      ValidationError.invalidReference s.id n ∈ collectViolations w) := by
  refine ⟨?_, ?_, ?_, ?_, ?_⟩
  · simp [validateWorkflow, hne, hnd, hviol]
  · intro s hs hid htool
    refine List.mem_flatMap.mpr ⟨s, hs, List.mem_append.mpr (Or.inl ?_)⟩
    simp [validateStep, hid, htool]
  · intro s hs hid hcmd
    refine List.mem_flatMap.mpr ⟨s, hs, List.mem_append.mpr (Or.inl ?_)⟩
    simp [validateStep, hid, hcmd]
  · intro s hs p hp hnotin
    refine List.mem_flatMap.mpr ⟨s, hs, List.mem_append.mpr (Or.inr ?_)⟩
    unfold refErrors
    refine List.mem_append.mpr (Or.inl ?_)
    refine List.mem_map.mpr ⟨p, List.mem_filter.mpr ⟨hp, ?_⟩, rfl⟩
    rw [Bool.not_eq_true']
    exact contains_false_of_not_mem _ _ hnotin
  · intro s hs n hn hnotin
    refine List.mem_flatMap.mpr ⟨s, hs, List.mem_append.mpr (Or.inr ?_)⟩
    unfold refErrors
    refine List.mem_append.mpr (Or.inr ?_)
    refine List.mem_map.mpr ⟨n, List.mem_filter.mpr ⟨hn, ?_⟩, rfl⟩
    rw [Bool.not_eq_true']
    exact contains_false_of_not_mem _ _ hnotin

/-- Concrete instantiation of the amended C7: on the duplicate-free
workflow with an empty tool, an empty command and a dangling reference, the
combined error carries the whole collected list, and the dangling reference
of `b` is among the collected violations. -/
theorem violations_collected_and_combined_witness :
    validateWorkflow wfViols =
      Except.error (WorkflowError.combined (collectViolations wfViols)) ∧
    ValidationError.invalidReference "b" "zz" ∈ collectViolations wfViols :=
  ⟨(violations_collected_and_combined wfViols (by decide) (by decide)
      (by decide)).1, by decide⟩

/-! ## C8 -/

/-- Counterexample to C8 as stated: a failing `state.save()` call after a
successful step makes the result-processing block return a persistence
error instead of continuing the run with a warning. -/
theorem save_failure_fatal_counterexample :
    processStepResult (ExecutionPlanner.new wfTwo false 4 8)
      ⟨"wf.yaml", [], none⟩ "a" (Except.ok ()) (SaveOutcome.error "disk full") =
      Except.error (RunError.persistenceFailed "disk full") := rfl

/-- C8 (amended): the `?` operator on `state.save()` propagates a save
failure out of `Engine::run` in both the success and the failure branch of
the step-result handler, so a persistence failure terminates the run rather
than being a non-fatal warning. -/
theorem save_failure_propagates (planner : ExecutionPlanner)
    (state : WorkflowState) (stepId e : String)
    (result : Except String Unit) :
    processStepResult planner state stepId result (SaveOutcome.error e) =
      Except.error (RunError.persistenceFailed e) := by
  cases result <;> rfl

/-! ## C9 -/

/-- Counterexample to C9 as stated: a step whose only brace-delimited token
occurs in its command text satisfies `Step::has_wildcards`, yet
`expand_workflow_wildcards` leaves the workflow unchanged — the expansion
decision looks only at inputs and outputs. -/
theorem command_wildcard_not_expanded_counterexample :
    Step.hasWildcards cmdWcStep = true ∧
    expandWorkflowWildcards wfCmdWc [("sample", ["s1.txt", "s2.txt"])] =
      Except.ok wfCmdWc := by decide

/-- C9 (amended): `expand_workflow_wildcards` treats a step as templated
only on a wildcard occurring in its inputs or outputs: a step with no
input/output wildcard is kept as-is (even if its command text has one), and
a step with input/output wildcards naming exactly one wildcard with a bound
file list expands into one concrete step per extracted value. -/
theorem expansion_driven_by_io_wildcards
    (wildcardFiles : List (String × List String)) (s : Step) :
    (s.input.any textHasWildcards = false →
      s.output.any textHasWildcards = false →
      expandOne wildcardFiles s = Except.ok [s]) ∧
    (∀ name files,
      (s.input.any textHasWildcards || s.output.any textHasWildcards) = true →
      (s.input.flatMap extractWildcardNames ++
        s.output.flatMap extractWildcardNames).dedup = [name] →
      amapGet wildcardFiles name = some files →
      expandOne wildcardFiles s =
        Except.ok ((extractWildcardValues files).map (instantiateStep s name))) := by
  constructor
  · intro hin hout
    simp [expandOne, hin, hout]
  · intro name files hwc hname hfiles
    have hcond : (!(s.input.any textHasWildcards) &&
        !(s.output.any textHasWildcards)) = false := by
      cases ha : s.input.any textHasWildcards <;>
        cases hb : s.output.any textHasWildcards <;> simp_all
    simp only [expandOne, hcond, Bool.false_eq_true, if_false, hname, hfiles]

/-- Concrete instantiation of the amended C9: the command-only wildcard
step passes through unchanged, while a step with an input wildcard expands
into one step per bound file. -/
theorem expansion_driven_by_io_wildcards_witness :
    expandOne [("sample", ["s1.txt", "s2.txt"])] cmdWcStep =
      Except.ok [cmdWcStep] ∧
    expandOne [("sample", ["s1.txt", "s2.txt"])] ioWcStep =
      Except.ok ((extractWildcardValues ["s1.txt", "s2.txt"]).map
        (instantiateStep ioWcStep "sample")) :=
  ⟨(expansion_driven_by_io_wildcards _ cmdWcStep).1 (by decide) (by decide),
   (expansion_driven_by_io_wildcards _ ioWcStep).2 "sample"
     ["s1.txt", "s2.txt"] (by decide) (by decide) (by decide)⟩

/-! ## C5: implicit dependency derivation -/

theorem lexLe_total (a b : List Char) : lexLe a b = true ∨ lexLe b a = true := by
  induction a generalizing b with
  | nil => exact Or.inl rfl
  | cons x xs ih =>
    cases b with
    | nil => exact Or.inr rfl
    | cons y ys =>
      unfold lexLe
      by_cases hxy : x = y
      · subst hxy
        rw [if_pos rfl, if_pos rfl]
        exact ih ys
      · rw [if_neg hxy, if_neg (Ne.symm hxy)]
        rcases lt_or_gt_of_ne hxy with h | h
        · exact Or.inl (decide_eq_true h)
        · exact Or.inr (decide_eq_true h)

theorem lexLe_trans (a b c : List Char) (hab : lexLe a b = true)
    (hbc : lexLe b c = true) : lexLe a c = true := by
  induction a generalizing b c with
  | nil => rfl
  | cons x xs ih =>
    cases b with
    | nil => exact absurd hab (by simp [lexLe])
    | cons y ys =>
      cases c with
      | nil => exact absurd hbc (by simp [lexLe])
      | cons z zs =>
        unfold lexLe at hab hbc ⊢
        by_cases hxy : x = y
        · subst hxy
          rw [if_pos rfl] at hab
          by_cases hyz : x = z
          · subst hyz
            rw [if_pos rfl] at hbc ⊢
            exact ih ys zs hab hbc
          · rw [if_neg hyz] at hbc ⊢
            exact hbc
        · rw [if_neg hxy] at hab
          have hlt : x < y := of_decide_eq_true hab
          by_cases hyz : y = z
          · subst hyz
            rw [if_neg hxy]
            exact decide_eq_true hlt
          · rw [if_neg hyz] at hbc
            have hlt2 : y < z := of_decide_eq_true hbc
            have hxz : x < z := lt_trans hlt hlt2
            rw [if_neg (ne_of_lt hxz)]
            exact decide_eq_true hxz

theorem strLeB_total_thm (a b : String) :
    strLeB a b = true ∨ strLeB b a = true := lexLe_total a.toList b.toList

theorem strLeB_trans_thm (a b c : String) (hab : strLeB a b = true)
    (hbc : strLeB b c = true) : strLeB a c = true :=
  lexLe_trans a.toList b.toList c.toList hab hbc

instance : IsTotal String (fun a b => strLeB a b = true) :=
  ⟨strLeB_total_thm⟩

instance : IsTrans String (fun a b => strLeB a b = true) :=
  ⟨strLeB_trans_thm⟩

theorem mem_sortDedup (l : List String) (x : String) :
    x ∈ sortDedup l ↔ x ∈ l := by
  unfold sortDedup
  rw [List.mem_dedup]
  exact (List.perm_insertionSort _ l).mem_iff

theorem sortDedup_nodup (l : List String) : (sortDedup l).Nodup :=
  List.nodup_dedup _

theorem sortDedup_sorted (l : List String) :
    List.Sorted (fun a b => strLeB a b = true) (sortDedup l) :=
  List.Pairwise.sublist (List.dedup_sublist _) (List.sorted_insertionSort _ l)

theorem insertOutputs_mono (sid : String) (files : List String)
    (m m' : List (String × String))
    (h : insertOutputs sid files m = Except.ok m') :
    ∀ f pid, amapGet m f = some pid → amapGet m' f = some pid := by
  induction files generalizing m with
  | nil =>
    intro f pid hget
    simp only [insertOutputs, Except.ok.injEq] at h
    subst h
    exact hget
  | cons g rest ih =>
    intro f pid hget
    cases hg : amapGet m g with
    | some existing =>
      simp only [insertOutputs, hg] at h
      exact Except.noConfusion h
    | none =>
      simp only [insertOutputs, hg] at h
      refine ih _ h f pid ?_
      rw [amapGet_amapSet]
      by_cases hfg : f = g
      · subst hfg
        rw [hg] at hget
        exact Option.noConfusion hget
      · rw [if_neg hfg]
        exact hget

theorem insertOutputs_mem (sid : String) (files : List String)
    (m m' : List (String × String))
    (h : insertOutputs sid files m = Except.ok m') :
    ∀ f ∈ files, amapGet m' f = some sid := by
  induction files generalizing m with
  | nil =>
    intro f hf
    exact absurd hf (List.not_mem_nil f)
  | cons g rest ih =>
    intro f hf
    cases hg : amapGet m g with
    | some existing =>
      simp only [insertOutputs, hg] at h
      exact Except.noConfusion h
    | none =>
      simp only [insertOutputs, hg] at h
      rcases List.mem_cons.mp hf with rfl | hf'
      · exact insertOutputs_mono sid rest _ m' h f sid
          (by rw [amapGet_amapSet, if_pos rfl])
      · exact ih _ h f hf'

theorem insertOutputs_inv (sid : String) (files : List String)
    (m m' : List (String × String))
    (h : insertOutputs sid files m = Except.ok m') :
    ∀ f pid, amapGet m' f = some pid →
      amapGet m f = some pid ∨ (pid = sid ∧ f ∈ files) := by
  induction files generalizing m with
  | nil =>
    intro f pid hget
    simp only [insertOutputs, Except.ok.injEq] at h
    subst h
    exact Or.inl hget
  | cons g rest ih =>
    intro f pid hget
    cases hg : amapGet m g with
    | some existing =>
      simp only [insertOutputs, hg] at h
      exact Except.noConfusion h
    | none =>
      simp only [insertOutputs, hg] at h
      rcases ih _ h f pid hget with hbase | ⟨rfl, hf⟩
      · rw [amapGet_amapSet] at hbase
        by_cases hfg : f = g
        · rw [if_pos hfg] at hbase
          injection hbase with he
          exact Or.inr ⟨he.symm, hfg ▸ List.mem_cons_self g rest⟩
        · rw [if_neg hfg] at hbase
          exact Or.inl hbase
      · exact Or.inr ⟨rfl, List.mem_cons_of_mem g hf⟩

theorem insertOutputs_err (sid : String) (files : List String)
    (m : List (String × String)) (f p q : String)
    (h : insertOutputs sid files m =
      Except.error (DeriveError.ambiguousProducer f p q)) :
    q = sid ∧ f ∈ files ∧ (amapGet m f = some p ∨ p = sid) := by
  induction files generalizing m with
  | nil =>
    simp only [insertOutputs] at h
    exact Except.noConfusion h
  | cons g rest ih =>
    cases hg : amapGet m g with
    | some existing =>
      simp only [insertOutputs, hg, Except.error.injEq,
        DeriveError.ambiguousProducer.injEq] at h
      obtain ⟨hf, hp, hq⟩ := h
      subst hf
      subst hp
      subst hq
      exact ⟨rfl, List.mem_cons_self g rest, Or.inl hg⟩
    | none =>
      simp only [insertOutputs, hg] at h
      obtain ⟨hq, hf, hrest⟩ := ih _ h
      refine ⟨hq, List.mem_cons_of_mem g hf, ?_⟩
      rcases hrest with hbase | hp
      · rw [amapGet_amapSet] at hbase
        by_cases hfg : f = g
        · rw [if_pos hfg] at hbase
          injection hbase with he
          exact Or.inr he.symm
        · rw [if_neg hfg] at hbase
          exact Or.inl hbase
      · exact Or.inr hp

theorem buildOutputMap_mono (steps : List Step)
    (m M : List (String × String))
    (h : buildOutputMap steps m = Except.ok M) :
    ∀ f pid, amapGet m f = some pid → amapGet M f = some pid := by
  induction steps generalizing m with
  | nil =>
    intro f pid hget
    simp only [buildOutputMap, Except.ok.injEq] at h
    subst h
    exact hget
  | cons t rest ih =>
    intro f pid hget
    cases hins : insertOutputs t.id (stepOutputFiles t) m with
    | error e =>
      simp only [buildOutputMap, hins] at h
      exact Except.noConfusion h
    | ok m1 =>
      simp only [buildOutputMap, hins] at h
      exact ih _ h f pid (insertOutputs_mono _ _ _ _ hins f pid hget)

theorem buildOutputMap_mem (steps : List Step)
    (m M : List (String × String))
    (h : buildOutputMap steps m = Except.ok M) :
    ∀ s ∈ steps, ∀ f ∈ stepOutputFiles s, amapGet M f = some s.id := by
  induction steps generalizing m with
  | nil =>
    intro s hs
    exact absurd hs (List.not_mem_nil s)
  | cons t rest ih =>
    intro s hs f hf
    cases hins : insertOutputs t.id (stepOutputFiles t) m with
    | error e =>
      simp only [buildOutputMap, hins] at h
      exact Except.noConfusion h
    | ok m1 =>
      simp only [buildOutputMap, hins] at h
      rcases List.mem_cons.mp hs with rfl | hs'
      · exact buildOutputMap_mono rest m1 M h f s.id
          (insertOutputs_mem _ _ _ _ hins f hf)
      · exact ih _ h s hs' f hf

theorem buildOutputMap_inv (steps : List Step)
    (m M : List (String × String))
    (h : buildOutputMap steps m = Except.ok M) :
    ∀ f pid, amapGet M f = some pid →
      amapGet m f = some pid ∨
        ∃ s, s ∈ steps ∧ pid = s.id ∧ f ∈ stepOutputFiles s := by
  induction steps generalizing m with
  | nil =>
    intro f pid hget
    simp only [buildOutputMap, Except.ok.injEq] at h
    subst h
    exact Or.inl hget
  | cons t rest ih =>
    intro f pid hget
    cases hins : insertOutputs t.id (stepOutputFiles t) m with
    | error e =>
      simp only [buildOutputMap, hins] at h
      exact Except.noConfusion h
    | ok m1 =>
      simp only [buildOutputMap, hins] at h
      rcases ih _ h f pid hget with hbase | ⟨s, hs, hpid, hf⟩
      · rcases insertOutputs_inv _ _ _ _ hins f pid hbase with h2 | ⟨rfl, hf⟩
        · exact Or.inl h2
        · exact Or.inr ⟨t, List.mem_cons_self t rest, rfl, hf⟩
      · exact Or.inr ⟨s, List.mem_cons_of_mem t hs, hpid, hf⟩

theorem buildOutputMap_err (steps : List Step)
    (m : List (String × String)) (f p q : String)
    (h : buildOutputMap steps m =
      Except.error (DeriveError.ambiguousProducer f p q)) :
    (amapGet m f = some p ∨
      ∃ s, s ∈ steps ∧ p = s.id ∧ f ∈ stepOutputFiles s) ∧
    (∃ s, s ∈ steps ∧ q = s.id ∧ f ∈ stepOutputFiles s) := by
  induction steps generalizing m with
  | nil =>
    simp only [buildOutputMap] at h
    exact Except.noConfusion h
  | cons t rest ih =>
    cases hins : insertOutputs t.id (stepOutputFiles t) m with
    | error e =>
      simp only [buildOutputMap, hins, Except.error.injEq] at h
      subst h
      obtain ⟨hq, hf, hrest⟩ := insertOutputs_err _ _ _ _ _ _ hins
      refine ⟨?_, ⟨t, List.mem_cons_self t rest, hq, hf⟩⟩
      rcases hrest with hbase | hp
      · exact Or.inl hbase
      · exact Or.inr ⟨t, List.mem_cons_self t rest, hp, hf⟩
    | ok m1 =>
      simp only [buildOutputMap, hins] at h
      obtain ⟨h1, h2⟩ := ih _ h
      refine ⟨?_, ?_⟩
      · rcases h1 with hbase | ⟨s, hs, hp, hf'⟩
        · rcases insertOutputs_inv _ _ _ _ hins f p hbase with hbb | ⟨hp, hf'⟩
          · exact Or.inl hbb
          · exact Or.inr ⟨t, List.mem_cons_self t rest, hp, hf'⟩
        · exact Or.inr ⟨s, List.mem_cons_of_mem t hs, hp, hf'⟩
      · obtain ⟨s, hs, hq, hf'⟩ := h2
        exact ⟨s, List.mem_cons_of_mem t hs, hq, hf'⟩

theorem insertOutputs_ok (sid : String) (files : List String)
    (m : List (String × String))
    (hfresh : ∀ f ∈ files, amapGet m f = none) (hnd : files.Nodup) :
    ∃ m', insertOutputs sid files m = Except.ok m' ∧
      ∀ g, g ∉ files → amapGet m' g = amapGet m g := by
  induction files generalizing m with
  | nil => exact ⟨m, rfl, fun g _ => rfl⟩
  | cons f rest ih =>
    have hf : amapGet m f = none := hfresh f (List.mem_cons_self f rest)
    obtain ⟨hnotin, hnd'⟩ := List.nodup_cons.mp hnd
    have hfresh' : ∀ g ∈ rest, amapGet (amapSet m f sid) g = none := by
      intro g hg
      have hne : g ≠ f := by
        intro he
        exact hnotin (he ▸ hg)
      rw [amapGet_amapSet, if_neg hne]
      exact hfresh g (List.mem_cons_of_mem f hg)
    obtain ⟨m', hok, hpres⟩ := ih (amapSet m f sid) hfresh' hnd'
    refine ⟨m', ?_, ?_⟩
    · simp only [insertOutputs, hf]
      exact hok
    · intro g hg
      have hg1 : g ∉ rest := fun hx => hg (List.mem_cons_of_mem f hx)
      have hg2 : g ≠ f := fun hx => hg (hx ▸ List.mem_cons_self f rest)
      rw [hpres g hg1, amapGet_amapSet, if_neg hg2]

theorem buildOutputMap_ok (steps : List Step) (m : List (String × String))
    (hfresh : ∀ s ∈ steps, ∀ f ∈ stepOutputFiles s, amapGet m f = none)
    (hnd : (steps.flatMap stepOutputFiles).Nodup) :
    ∃ M, buildOutputMap steps m = Except.ok M := by
  induction steps generalizing m with
  | nil => exact ⟨m, rfl⟩
  | cons t rest ih =>
    rw [List.flatMap_cons, List.nodup_append] at hnd
    obtain ⟨hnd1, hnd2, hdisj⟩ := hnd
    obtain ⟨m1, hok, hpres⟩ := insertOutputs_ok t.id (stepOutputFiles t) m
      (hfresh t (List.mem_cons_self t rest)) hnd1
    have hfresh' : ∀ s ∈ rest, ∀ f ∈ stepOutputFiles s,
        amapGet m1 f = none := by
      intro s hs f hf
      have hnotin : f ∉ stepOutputFiles t := fun hx =>
        hdisj hx (List.mem_flatMap.mpr ⟨s, hs, hf⟩)
      rw [hpres f hnotin]
      exact hfresh s (List.mem_cons_of_mem t hs) f hf
    obtain ⟨M, hM⟩ := ih m1 hfresh' hnd2
    refine ⟨M, ?_⟩
    simp only [buildOutputMap, hok]
    exact hM

theorem getDL_multiPush (m : List (String × List String)) (k v j x : String) :
    x ∈ getDL (multiPush m k v) j ↔ x ∈ getDL m j ∨ (j = k ∧ x = v) := by
  cases hk : amapGet m k with
  | some vs =>
    by_cases hjk : j = k
    · subst hjk
      simp [multiPush, hk, getDL, amapGet_amapSet, List.mem_append]
    · simp [multiPush, hk, getDL, amapGet_amapSet, hjk]
  | none =>
    by_cases hjk : j = k
    · subst hjk
      simp [multiPush, hk, getDL, amapGet_amapSet]
    · simp [multiPush, hk, getDL, amapGet_amapSet, hjk]

theorem buildDepMapsStep_mem (M : List (String × String)) (sid : String)
    (files : List String) (D N : List (String × List String)) :
    (∀ k x, x ∈ getDL (buildDepMapsStep M sid files (D, N)).1 k ↔
      x ∈ getDL D k ∨ (k = sid ∧ ∃ f ∈ files, amapGet M f = some x)) ∧
    (∀ k x, x ∈ getDL (buildDepMapsStep M sid files (D, N)).2 k ↔
      x ∈ getDL N k ∨ (x = sid ∧ ∃ f ∈ files, amapGet M f = some k)) := by
  induction files generalizing D N with
  | nil => simp [buildDepMapsStep]
  | cons g rest ih =>
    cases hg : amapGet M g with
    | none =>
      simp only [buildDepMapsStep, hg]
      constructor
      · intro k x
        rw [(ih D N).1 k x]
        constructor
        · rintro (h | ⟨rfl, f, hf, hfx⟩)
          · exact Or.inl h
          · exact Or.inr ⟨rfl, f, List.mem_cons_of_mem g hf, hfx⟩
        · rintro (h | ⟨rfl, f, hf, hfx⟩)
          · exact Or.inl h
          · rcases List.mem_cons.mp hf with rfl | hf'
            · rw [hg] at hfx
              exact Option.noConfusion hfx
            · exact Or.inr ⟨rfl, f, hf', hfx⟩
      · intro k x
        rw [(ih D N).2 k x]
        constructor
        · rintro (h | ⟨rfl, f, hf, hfx⟩)
          · exact Or.inl h
          · exact Or.inr ⟨rfl, f, List.mem_cons_of_mem g hf, hfx⟩
        · rintro (h | ⟨rfl, f, hf, hfx⟩)
          · exact Or.inl h
          · rcases List.mem_cons.mp hf with rfl | hf'
            · rw [hg] at hfx
              exact Option.noConfusion hfx
            · exact Or.inr ⟨rfl, f, hf', hfx⟩
    | some p =>
      simp only [buildDepMapsStep, hg]
      constructor
      · intro k x
        rw [(ih (multiPush D sid p) (multiPush N p sid)).1 k x,
          getDL_multiPush]
        constructor
        · rintro ((h | ⟨rfl, rfl⟩) | ⟨rfl, f, hf, hfx⟩)
          · exact Or.inl h
          · exact Or.inr ⟨rfl, g, List.mem_cons_self g rest, hg⟩
          · exact Or.inr ⟨rfl, f, List.mem_cons_of_mem g hf, hfx⟩
        · rintro (h | ⟨rfl, f, hf, hfx⟩)
          · exact Or.inl (Or.inl h)
          · rcases List.mem_cons.mp hf with rfl | hf'
            · rw [hg] at hfx
              injection hfx with he
              exact Or.inl (Or.inr ⟨rfl, he.symm⟩)
            · exact Or.inr ⟨rfl, f, hf', hfx⟩
      · intro k x
        rw [(ih (multiPush D sid p) (multiPush N p sid)).2 k x,
          getDL_multiPush]
        constructor
        · rintro ((h | ⟨rfl, rfl⟩) | ⟨rfl, f, hf, hfx⟩)
          · exact Or.inl h
          · exact Or.inr ⟨rfl, g, List.mem_cons_self g rest, hg⟩
          · exact Or.inr ⟨rfl, f, List.mem_cons_of_mem g hf, hfx⟩
        · rintro (h | ⟨rfl, f, hf, hfx⟩)
          · exact Or.inl (Or.inl h)
          · rcases List.mem_cons.mp hf with rfl | hf'
            · rw [hg] at hfx
              injection hfx with he
              exact Or.inl (Or.inr ⟨he.symm, rfl⟩)
            · exact Or.inr ⟨rfl, f, hf', hfx⟩

theorem buildDepMaps_mem (M : List (String × String)) (steps : List Step)
    (D N : List (String × List String)) :
    (∀ k x, x ∈ getDL (buildDepMaps M steps (D, N)).1 k ↔
      x ∈ getDL D k ∨ ∃ s, s ∈ steps ∧ s.id = k ∧
        ∃ f ∈ stepInputFiles s, amapGet M f = some x) ∧
    (∀ k x, x ∈ getDL (buildDepMaps M steps (D, N)).2 k ↔
      x ∈ getDL N k ∨ ∃ s, s ∈ steps ∧ s.id = x ∧
        ∃ f ∈ stepInputFiles s, amapGet M f = some k) := by
  induction steps generalizing D N with
  | nil => simp [buildDepMaps]
  | cons t rest ih =>
    have hpair : buildDepMapsStep M t.id (stepInputFiles t) (D, N) =
        ((buildDepMapsStep M t.id (stepInputFiles t) (D, N)).1,
         (buildDepMapsStep M t.id (stepInputFiles t) (D, N)).2) := rfl
    constructor
    · intro k x
      simp only [buildDepMaps]
      rw [hpair,
        (ih (buildDepMapsStep M t.id (stepInputFiles t) (D, N)).1
          (buildDepMapsStep M t.id (stepInputFiles t) (D, N)).2).1 k x,
        (buildDepMapsStep_mem M t.id (stepInputFiles t) D N).1 k x]
      constructor
      · rintro ((h | ⟨rfl, f, hf, hfx⟩) | ⟨s, hs, hsk, f, hf, hfx⟩)
        · exact Or.inl h
        · exact Or.inr ⟨t, List.mem_cons_self t rest, rfl, f, hf, hfx⟩
        · exact Or.inr ⟨s, List.mem_cons_of_mem t hs, hsk, f, hf, hfx⟩
      · rintro (h | ⟨s, hs, hsk, f, hf, hfx⟩)
        · exact Or.inl (Or.inl h)
        · rcases List.mem_cons.mp hs with rfl | hs'
          · exact Or.inl (Or.inr ⟨hsk.symm, f, hf, hfx⟩)
          · exact Or.inr ⟨s, hs', hsk, f, hf, hfx⟩
    · intro k x
      simp only [buildDepMaps]
      rw [hpair,
        (ih (buildDepMapsStep M t.id (stepInputFiles t) (D, N)).1
          (buildDepMapsStep M t.id (stepInputFiles t) (D, N)).2).2 k x,
        (buildDepMapsStep_mem M t.id (stepInputFiles t) D N).2 k x]
      constructor
      · rintro ((h | ⟨rfl, f, hf, hfx⟩) | ⟨s, hs, hsx, f, hf, hfx⟩)
        · exact Or.inl h
        · exact Or.inr ⟨t, List.mem_cons_self t rest, rfl, f, hf, hfx⟩
        · exact Or.inr ⟨s, List.mem_cons_of_mem t hs, hsx, f, hf, hfx⟩
      · rintro (h | ⟨s, hs, hsx, f, hf, hfx⟩)
        · exact Or.inl (Or.inl h)
        · rcases List.mem_cons.mp hs with rfl | hs'
          · exact Or.inl (Or.inr ⟨hsx.symm, f, hf, hfx⟩)
          · exact Or.inr ⟨s, hs', hsx, f, hf, hfx⟩

theorem applyDerived_cleared (D N : List (String × List String)) (s : Step)
    (hp : s.previous = []) (hn : s.next = []) :
    (applyDerived D N s).id = s.id ∧
    (applyDerived D N s).tool = s.tool ∧
    (applyDerived D N s).command = s.command ∧
    (applyDerived D N s).input = s.input ∧
    (applyDerived D N s).output = s.output ∧
    (applyDerived D N s).threads = s.threads ∧
    (∀ x, x ∈ (applyDerived D N s).previous ↔ x ∈ getDL D s.id) ∧
    (∀ x, x ∈ (applyDerived D N s).next ↔ x ∈ getDL N s.id) ∧
    (applyDerived D N s).previous.Nodup ∧
    List.Sorted (fun a b => strLeB a b = true) (applyDerived D N s).previous ∧
    (applyDerived D N s).next.Nodup ∧
    List.Sorted (fun a b => strLeB a b = true) (applyDerived D N s).next := by
  cases hd : amapGet D s.id with
  | some ds =>
    cases hn2 : amapGet N s.id with
    | some ns =>
      simp only [applyDerived, hd, hn2]
      refine ⟨trivial, trivial, trivial, trivial, trivial, trivial, ?_, ?_, ?_, ?_, ?_, ?_⟩
      · intro x
        rw [mem_sortDedup]
        unfold getDL
        rw [hd]
        exact Iff.rfl
      · intro x
        rw [mem_sortDedup]
        unfold getDL
        rw [hn2]
        exact Iff.rfl
      · exact sortDedup_nodup ds
      · exact sortDedup_sorted ds
      · exact sortDedup_nodup ns
      · exact sortDedup_sorted ns
    | none =>
      simp only [applyDerived, hd, hn2]
      refine ⟨trivial, trivial, trivial, trivial, trivial, trivial, ?_, ?_, ?_, ?_, ?_, ?_⟩
      · intro x
        rw [mem_sortDedup]
        unfold getDL
        rw [hd]
        exact Iff.rfl
      · intro x
        unfold getDL
        rw [hn2, hn]
        exact Iff.rfl
      · exact sortDedup_nodup ds
      · exact sortDedup_sorted ds
      · rw [hn]
        exact List.nodup_nil
      · rw [hn]
        exact List.sorted_nil
  | none =>
    cases hn2 : amapGet N s.id with
    | some ns =>
      simp only [applyDerived, hd, hn2]
      refine ⟨trivial, trivial, trivial, trivial, trivial, trivial, ?_, ?_, ?_, ?_, ?_, ?_⟩
      · intro x
        unfold getDL
        rw [hd, hp]
        exact Iff.rfl
      · intro x
        rw [mem_sortDedup]
        unfold getDL
        rw [hn2]
        exact Iff.rfl
      · rw [hp]
        exact List.nodup_nil
      · rw [hp]
        exact List.sorted_nil
      · exact sortDedup_nodup ns
      · exact sortDedup_sorted ns
    | none =>
      simp only [applyDerived, hd, hn2]
      refine ⟨trivial, trivial, trivial, trivial, trivial, trivial, ?_, ?_, ?_, ?_, ?_, ?_⟩
      · intro x
        unfold getDL
        rw [hd, hp]
        exact Iff.rfl
      · intro x
        unfold getDL
        rw [hn2, hn]
        exact Iff.rfl
      · rw [hp]
        exact List.nodup_nil
      · rw [hp]
        exact List.sorted_nil
      · rw [hn]
        exact List.nodup_nil
      · rw [hn]
        exact List.sorted_nil

theorem amapGet_nil_str (f : String) :
    amapGet ([] : List (String × String)) f = none := rfl

theorem stepsInj (w : Workflow) (hnd : (w.steps.map Step.id).Nodup)
    (u v : Step) (hu : u ∈ w.steps) (hv : v ∈ w.steps)
    (h : u.id = v.id) : u = v :=
  List.inj_on_of_nodup_map hnd hu hv h

/-- C5: under duplicate-free step ids, `derive_dependencies_from_files`
(1) fails with an ambiguous-producer error naming a file and two of its
genuine producers whenever two distinct steps declare a common output file,
(2) on success returns the steps with all other fields preserved and with
`previous`/`next` sorted, deduplicated and containing exactly the derived
producer/consumer edges, and (3) succeeds whenever all declared output
files are globally distinct. -/
theorem derive_dependencies_from_files_spec (w : Workflow)
    (hnd : (w.steps.map Step.id).Nodup) :
    (∀ s1 ∈ w.steps, ∀ s2 ∈ w.steps, s1.id ≠ s2.id →
      ∀ f, f ∈ stepOutputFiles s1 → f ∈ stepOutputFiles s2 →
      ∃ f' p q, deriveDependenciesFromFiles w =
          Except.error (DeriveError.ambiguousProducer f' p q) ∧
        (∃ sp ∈ w.steps, p = sp.id ∧ f' ∈ stepOutputFiles sp) ∧
        (∃ sq ∈ w.steps, q = sq.id ∧ f' ∈ stepOutputFiles sq)) ∧
    (∀ w', deriveDependenciesFromFiles w = Except.ok w' →
      w'.steps.map Step.id = w.steps.map Step.id ∧
      ∀ s ∈ w.steps, ∃ s' ∈ w'.steps, s'.id = s.id ∧
        s'.tool = s.tool ∧ s'.command = s.command ∧
        s'.input = s.input ∧ s'.output = s.output ∧
        s'.threads = s.threads ∧
        s'.previous.Nodup ∧
        List.Sorted (fun a b => strLeB a b = true) s'.previous ∧
        s'.next.Nodup ∧
        List.Sorted (fun a b => strLeB a b = true) s'.next ∧
        (∀ p, p ∈ s'.previous ↔
          ∃ f ∈ stepInputFiles s, ∃ t ∈ w.steps, p = t.id ∧
            f ∈ stepOutputFiles t) ∧
        (∀ n, n ∈ s'.next ↔
          ∃ c ∈ w.steps, c.id = n ∧ ∃ f ∈ stepInputFiles c,
            f ∈ stepOutputFiles s)) ∧
    ((w.steps.flatMap stepOutputFiles).Nodup →
      ∃ w', deriveDependenciesFromFiles w = Except.ok w') := by
  refine ⟨?_, ?_, ?_⟩
  · -- error completeness
    intro s1 hs1 s2 hs2 hne f hf1 hf2
    cases hbom : buildOutputMap (w.steps.map clearEdges) [] with
    | ok M =>
      exfalso
      have h1 := buildOutputMap_mem _ _ _ hbom (clearEdges s1)
        (List.mem_map_of_mem clearEdges hs1) f
        (show f ∈ stepOutputFiles (clearEdges s1) from hf1)
      have h2 := buildOutputMap_mem _ _ _ hbom (clearEdges s2)
        (List.mem_map_of_mem clearEdges hs2) f
        (show f ∈ stepOutputFiles (clearEdges s2) from hf2)
      rw [h1] at h2
      injection h2 with he
      exact hne he
    | error e =>
      cases e with
      | ambiguousProducer f' p q =>
        have hderiv : deriveDependenciesFromFiles w =
            Except.error (DeriveError.ambiguousProducer f' p q) := by
          simp only [deriveDependenciesFromFiles, hbom]
        obtain ⟨hP, hQ⟩ := buildOutputMap_err _ _ _ _ _ hbom
        refine ⟨f', p, q, hderiv, ?_, ?_⟩
        · rcases hP with hbad | ⟨sc, hsc, hp, hfo⟩
          · rw [amapGet_nil_str] at hbad
            exact Option.noConfusion hbad
          · obtain ⟨u, hu, rfl⟩ := List.mem_map.mp hsc
            exact ⟨u, hu, hp, hfo⟩
        · obtain ⟨sc, hsc, hq, hfo⟩ := hQ
          obtain ⟨u, hu, rfl⟩ := List.mem_map.mp hsc
          exact ⟨u, hu, hq, hfo⟩
  · -- success characterization
    intro w' hok
    cases hbom : buildOutputMap (w.steps.map clearEdges) [] with
    | error e =>
      simp only [deriveDependenciesFromFiles, hbom] at hok
      exact Except.noConfusion hok
    | ok M =>
      simp only [deriveDependenciesFromFiles, hbom, Except.ok.injEq] at hok
      have hsteps : w'.steps = (w.steps.map clearEdges).map
          (applyDerived
            (buildDepMaps M (w.steps.map clearEdges) ([], [])).1
            (buildDepMaps M (w.steps.map clearEdges) ([], [])).2) := by
        rw [← hok]
      have hMc : ∀ f pid, amapGet M f = some pid ↔
          ∃ t, t ∈ w.steps ∧ pid = t.id ∧ f ∈ stepOutputFiles t := by
        intro f pid
        constructor
        · intro h
          rcases buildOutputMap_inv _ _ _ hbom f pid h with hbad | ⟨tc, htc, hpid, hfo⟩
          · rw [amapGet_nil_str] at hbad
            exact Option.noConfusion hbad
          · obtain ⟨u, hu, rfl⟩ := List.mem_map.mp htc
            exact ⟨u, hu, hpid, hfo⟩
        · rintro ⟨t, ht, rfl, hfo⟩
          exact buildOutputMap_mem _ _ _ hbom (clearEdges t)
            (List.mem_map_of_mem clearEdges ht) f
            (show f ∈ stepOutputFiles (clearEdges t) from hfo)
      have hD := (buildDepMaps_mem M (w.steps.map clearEdges) [] []).1
      have hN := (buildDepMaps_mem M (w.steps.map clearEdges) [] []).2
      constructor
      · rw [hsteps, List.map_map, List.map_map]
        refine List.map_congr_left ?_
        intro u _
        exact (applyDerived_cleared _ _ (clearEdges u) rfl rfl).1
      · intro s hs
        obtain ⟨A1, A2, A3, A4, A5, A6, Aprev, Anext, And1, Asort1, And2, Asort2⟩ :=
          applyDerived_cleared
            (buildDepMaps M (w.steps.map clearEdges) ([], [])).1
            (buildDepMaps M (w.steps.map clearEdges) ([], [])).2
            (clearEdges s) rfl rfl
        refine ⟨applyDerived
            (buildDepMaps M (w.steps.map clearEdges) ([], [])).1
            (buildDepMaps M (w.steps.map clearEdges) ([], [])).2
            (clearEdges s), ?_, A1, A2, A3, A4, A5, A6, And1, Asort1, And2, Asort2, ?_, ?_⟩
        · rw [hsteps]
          exact List.mem_map_of_mem _ (List.mem_map_of_mem clearEdges hs)
        · intro p
          rw [Aprev p]
          constructor
          · intro h
            rcases (hD (clearEdges s).id p).mp h with hnil | ⟨st, hst, hstid, f, hf, hMf⟩
            · exact absurd hnil (List.not_mem_nil p)
            · obtain ⟨u, hu, rfl⟩ := List.mem_map.mp hst
              have hus : u = s := stepsInj w hnd u s hu hs hstid
              subst hus
              obtain ⟨t, ht, hpt, hfo⟩ := (hMc f p).mp hMf
              exact ⟨f, hf, t, ht, hpt, hfo⟩
          · rintro ⟨f, hf, t, ht, hpt, hfo⟩
            apply (hD (clearEdges s).id p).mpr
            refine Or.inr ⟨clearEdges s,
              List.mem_map_of_mem clearEdges hs, rfl, f,
              (show f ∈ stepInputFiles (clearEdges s) from hf), ?_⟩
            exact (hMc f p).mpr ⟨t, ht, hpt, hfo⟩
        · intro n
          rw [Anext n]
          constructor
          · intro h
            rcases (hN (clearEdges s).id n).mp h with hnil | ⟨st, hst, hstid, f, hf, hMf⟩
            · exact absurd hnil (List.not_mem_nil n)
            · obtain ⟨c, hc, rfl⟩ := List.mem_map.mp hst
              obtain ⟨t, ht, hts, hfo⟩ := (hMc f (clearEdges s).id).mp hMf
              have hts2 : t = s := stepsInj w hnd t s ht hs hts.symm
              subst hts2
              exact ⟨c, hc, hstid, f, hf, hfo⟩
          · rintro ⟨c, hc, hcid, f, hf, hfo⟩
            apply (hN (clearEdges s).id n).mpr
            refine Or.inr ⟨clearEdges c,
              List.mem_map_of_mem clearEdges hc, hcid, f,
              (show f ∈ stepInputFiles (clearEdges c) from hf), ?_⟩
            exact (hMc f (clearEdges s).id).mpr ⟨s, hs, rfl, hfo⟩
  · -- success existence under globally distinct outputs
    intro hnd2
    have hflat : (w.steps.map clearEdges).flatMap stepOutputFiles =
        w.steps.flatMap stepOutputFiles := by
      induction w.steps with
      | nil => rfl
      | cons t rest ih =>
        simp only [List.map_cons, List.flatMap_cons, ih]
        rfl
    obtain ⟨M, hM⟩ := buildOutputMap_ok (w.steps.map clearEdges) []
      (fun s _ f _ => rfl) (hflat ▸ hnd2)
    cases hres : deriveDependenciesFromFiles w with
    | ok w2 => exact ⟨w2, rfl⟩
    | error e =>
      simp only [deriveDependenciesFromFiles, hM] at hres
      exact Except.noConfusion hres

/-- Concrete instantiation of C5: deriving the dependencies of `wfDerive`
succeeds with the expected edges, preserving the step ids in order. -/
theorem derive_dependencies_from_files_spec_witness :
    deriveDependenciesFromFiles wfDerive = Except.ok wfDerivedOut ∧
    wfDerivedOut.steps.map Step.id = wfDerive.steps.map Step.id :=
  ⟨by decide,
   ((derive_dependencies_from_files_spec wfDerive (by decide)).2.1 wfDerivedOut (by decide)).1⟩

end RustRunner
